/-
Verification of the JSMkDocs document-tree construction and rendering
pipeline (src/builder.js, src/markdown.js, src/writer.js), as a shallow
embedding in Lean 4.

Modelling conventions:
* JS strings are Lean `String`s; character-level processing works on
  `String.data : List Char` (the `u`-flagged JS regexes operate on code
  points, which match Lean `Char`).
* JS objects used as records become structures.  A field that may be
  absent (`docsTree.subPages`, `docsTree.sections`) is an `Option`;
  `undefined` is `none`.  A plain JS object used as an insertion-ordered
  string-keyed dictionary (`docsTree.sections`) is an association list.
* Code that can throw a `TypeError` (indexing `undefined`, calling a
  method on `undefined`) is modelled with `Option`: `none` means the JS
  code raises.
* Distinct JS comment objects are distinguished by an `ident` field.
-/
import Mathlib

namespace JSMkDocs

/-- A dox tag: `{ type, string }` as consumed by builder.js and markdown.js. -/
structure Tag where
  type : String
  string : String
deriving DecidableEq, Repr

/-- A comment as consumed by builder.js: only its `tags` array is read by
the core pipeline.  `ident` models JS object identity. -/
structure Comment where
  tags : List Tag
  ident : Nat
deriving DecidableEq, Repr

/-- JS `\s` character class (with the `u` flag): whitespace code points
matched by the separator regex in builder.js line 10 and by `\s+` in
writer.js line 27. -/
def jsWs (c : Char) : Bool :=
  c.toNat = 0x20 || c.toNat = 0x09 || c.toNat = 0x0a || c.toNat = 0x0b ||
  c.toNat = 0x0c || c.toNat = 0x0d || c.toNat = 0xa0 || c.toNat = 0x1680 ||
  (0x2000 ≤ c.toNat && c.toNat ≤ 0x200a) || c.toNat = 0x2028 || c.toNat = 0x2029 ||
  c.toNat = 0x202f || c.toNat = 0x205f || c.toNat = 0x3000 || c.toNat = 0xfeff

/-- `String.prototype.split` with the separator regex of builder.js line 10
(two forward slashes with greedy optional whitespace on both sides), on the
code-point list.  Each regex match is the first occurrence of two
consecutive slashes together with the contiguous whitespace run just before
it and just after it.  `acc` holds the current segment reversed; the `skip`
flag is set right after a separator while its trailing `\s*` is still
consuming whitespace.  `split` never produces an empty result array. -/
def splitGo : Bool → List Char → List Char → List (List Char)
  | _, acc, '/' :: '/' :: rest =>
      (acc.dropWhile jsWs).reverse :: splitGo true [] rest
  | skip, acc, c :: rest =>
      if skip && jsWs c then splitGo true acc rest else splitGo false (c :: acc) rest
  | _, acc, [] => [acc.reverse]

/-- builder.js line 10: `string.split(/\s*\/{2}\s*/u)`. -/
def splitPathString (s : String) : List String :=
  (splitGo false [] s.data).map (fun l => String.mk l)

/-- builder.js lines 8-11, `parsePathNames`: take the first tag whose type
is `docs` and split its string.  `none` models the `TypeError` the JS code
raises when no such tag exists. -/
def parsePathNames (c : Comment) : Option (List String) :=
  ((c.tags.filter (fun t => t.type == "docs")).head?).map
    (fun t => splitPathString t.string)

example : splitPathString "A // B // C" = ["A", "B", "C"] := by decide
example : splitPathString "A" = ["A"] := by decide
example : splitPathString "A //" = ["A", ""] := by decide
example : splitPathString " A // B " = [" A", "B "] := by decide

/-- The ordered `sections` dictionary of a tree node: JS object string keys
in insertion order, each mapping to the array of comments pushed for it. -/
abbrev Sections := List (String × List Comment)

/-- builder.js lines 39-43: ensure `sections[section]` exists and push the
comment onto it (append to the entry of the given key, creating the entry
at the end of the dictionary if absent). -/
def pushSection : Sections → String → Comment → Sections
  | [], key, c => [(key, [c])]
  | (k, cs) :: rest, key, c =>
      if k = key then (k, cs ++ [c]) :: rest else (k, cs) :: pushSection rest key c

/-- builder.js line 33: `const section = pathNames[0]`.  Indexing an empty
JS array yields `undefined`, which as an object property key coerces to the
string `"undefined"`. -/
def sectionKeyOf : List String → String
  | [] => "undefined"
  | s :: _ => s

/-- A page-level `docsTree` node mutated by builder.js: `pageName` plus the
optionally-present `subPages` array and `sections` object. -/
structure PageNode where
  pageName : String
  subPages : Option (List PageNode) := none
  sections : Option Sections := none
deriving Repr

/-- builder.js lines 13-26 (`getPage`), lookup half: the first sub page
with the given name, or the fresh `{ pageName }` node `getPage` would push
when none exists. -/
def getPageD (l : List PageNode) (p : String) : PageNode :=
  (l.find? (fun sp => sp.pageName == p)).getD { pageName := p, subPages := none, sections := none }

/-- builder.js lines 13-26 (`getPage`), update half: `getPage` hands the
(found or freshly pushed) page to `buildPages`, which mutates it in place;
purely, the first page with the given name is replaced by the rebuilt node
`v`, which is appended at the end when no page with that name existed. -/
def setPage : List PageNode → String → PageNode → List PageNode
  | [], _, v => [v]
  | sp :: sps, p, v => if sp.pageName = p then v :: sps else sp :: setPage sps p v

/-- builder.js lines 28-45, `buildPages`: with more than one remaining path
segment, descend into (or create) the sub page named by the head segment;
otherwise push the comment on the sections entry keyed by the single
remaining segment (or by `"undefined"` when no segment remains). -/
def buildPages : PageNode → List String → Comment → PageNode
  | t, p :: q :: rest, c =>
      { t with
          subPages := some (setPage (t.subPages.getD []) p
            (buildPages (getPageD (t.subPages.getD []) p) (q :: rest) c)) }
  | t, ns, c =>
      { t with sections := some (pushSection (t.sections.getD []) (sectionKeyOf ns) c) }

/-- A root `docsTree` object created by `assignCommentsToDocsTrees`:
`{ docsName, comments }`, later given `subPages`/`sections` fields by
`buildPages` (JS duck typing lets the same function mutate roots and
pages; the root is a separate structure here). -/
structure RootTree where
  docsName : String
  comments : List Comment := []
  subPages : Option (List PageNode) := none
  sections : Option Sections := none
deriving Repr

/-- builder.js `buildPages` applied at the root node (same two branches as
`buildPages`, operating on the root's own fields). -/
def buildPagesRoot (t : RootTree) (pathNames : List String) (c : Comment) : RootTree :=
  match pathNames with
  | p :: q :: rest =>
      { t with
          subPages := some (setPage (t.subPages.getD []) p
            (buildPages (getPageD (t.subPages.getD []) p) (q :: rest) c)) }
  | ns =>
      { t with sections := some (pushSection (t.sections.getD []) (sectionKeyOf ns) c) }

/-- builder.js lines 52-60, loop body: find the first tree whose `docsName`
matches and push the comment onto its `comments`, or append a fresh
`{ docsName, comments: [c] }`. -/
def updateOrAppendRoot (l : List RootTree) (n : String) (c : Comment) : List RootTree :=
  match l with
  | [] => [{ docsName := n, comments := [c] }]
  | dt :: rest =>
      if dt.docsName = n then { dt with comments := dt.comments ++ [c] } :: rest
      else dt :: updateOrAppendRoot rest n c

/-- One iteration of the builder.js lines 49-60 `forEach`: parse the
comment's path (TypeError — `none` — when the `docs` tag is missing) and
file the comment under its document name (`parsePathNames(c)[0]`). -/
def assignStep (trees : List RootTree) (c : Comment) : Option (List RootTree) :=
  (parsePathNames c).map (fun pns => updateOrAppendRoot trees (pns.headD "") c)

/-- builder.js lines 47-64, `assignCommentsToDocsTrees`: group the comments
into one root tree per distinct document name (segment 0 of the parsed
path), in first-seen order. -/
def assignCommentsToDocsTrees (comments : List Comment) : Option (List RootTree) :=
  comments.foldlM assignStep []

/-- One iteration of the builder.js lines 69-71 `forEach`:
`buildPages(dt, parsePathNames(c).slice(1), c)`. -/
def buildStep (t : RootTree) (c : Comment) : Option RootTree :=
  (parsePathNames c).map (fun pns => buildPagesRoot t (pns.drop 1) c)

/-- The builder.js lines 69-71 loop over one tree's comments. -/
def buildTree (dt : RootTree) : Option RootTree :=
  dt.comments.foldlM buildStep dt

/-- builder.js lines 66-76, `getDocsTrees`: group comments into root trees,
then for each tree fold `buildPages` over its comments with the parsed path
minus its first segment. -/
def getDocsTrees (comments : List Comment) : Option (List RootTree) := do
  let trees ← assignCommentsToDocsTrees comments
  trees.mapM buildTree

example : getDocsTrees [⟨[⟨"docs", "A"⟩], 0⟩] =
    some [⟨"A", [⟨[⟨"docs", "A"⟩], 0⟩], none, some [("undefined", [⟨[⟨"docs", "A"⟩], 0⟩])]⟩] := rfl

/-! ## markdown.js: the tag-string micro-parsers

markdown.js lines 7-14 build three anchored regexes from the fragments
`typeRgx = \{([a-zA-Z[\]]+)\}`, `nameRgx = ([a-zA-Z0-9-.[\]]+)(?:\s+-)?`
and `descRgx = ([^-].+)`:

* `descTagRgx    = ^name\s+desc$`
* `paramTagRgx   = ^type\s+name\s+desc$`
* `returnsTagRgx = ^type\s+desc$`

The matchers below implement exactly these patterns with JS backtracking
semantics.  The character classes contain no whitespace, no `}` and no `/`,
so every `X+` class repetition is forced to its maximal munch (a shorter
munch always leaves a class character where the pattern next requires
whitespace or `}`); the only live backtracking is in the `(?:\s+-)?\s+desc`
tail, implemented by `matchTail`. -/

/-- `[a-zA-Z[\]]` — the `typeRgx` character class. -/
def isTypeChar (c : Char) : Bool :=
  ('a' ≤ c && c ≤ 'z') || ('A' ≤ c && c ≤ 'Z') || c = '[' || c = ']'

/-- `[a-zA-Z0-9-.[\]]` — the `nameRgx` character class. -/
def isNameChar (c : Char) : Bool :=
  ('a' ≤ c && c ≤ 'z') || ('A' ≤ c && c ≤ 'Z') || ('0' ≤ c && c ≤ '9') ||
  c = '-' || c = '.' || c = '[' || c = ']'

/-- JS line terminators, not matched by `.` (no `s` flag on these regexes). -/
def isLineTerm (c : Char) : Bool :=
  c = '\n' || c = '\r' || c.toNat = 0x2028 || c.toNat = 0x2029

/-- `([^-].+)$` matched against the whole remainder: first character is any
code point except `-`, the rest is one or more non-line-terminator code
points, and the match must reach the end of the string. -/
def descHere : List Char → Option (List Char)
  | [] => none
  | d :: ds =>
      if d ≠ '-' && !ds.isEmpty && ds.all (fun ch => !isLineTerm ch) then some (d :: ds)
      else none

/-- `\s*([^-].+)$` with the greedy `\s*`: prefer consuming a whitespace
character, fall back to starting the description at it. -/
def wsStarDesc : List Char → Option (List Char)
  | [] => none
  | d :: ds =>
      if jsWs d then
        match wsStarDesc ds with
        | some r => some r
        | none => descHere (d :: ds)
      else descHere (d :: ds)

/-- `\s+([^-].+)$`: at least one whitespace character, then `wsStarDesc`. -/
def wsPlusDesc : List Char → Option (List Char)
  | [] => none
  | d :: ds => if jsWs d then wsStarDesc ds else none

/-- The `(?:\s+-)` group: a (necessarily maximal) nonempty whitespace run
followed by a literal `-`, then the mandatory `\s+desc` tail.  A shorter
munch of the group's `\s+` leaves a whitespace character where `-` is
required, so no backtracking arises inside the group. -/
def groupThen (r : List Char) : Option (List Char) :=
  match r.takeWhile jsWs, r.dropWhile jsWs with
  | [], _ => none
  | _, '-' :: r2 => wsPlusDesc r2
  | _, _ => none

/-- `(?:\s+-)?\s+([^-].+)$`: the greedy optional group is tried first; if
it or the rest of the pattern fails, the group is skipped. -/
def matchTail (r : List Char) : Option (List Char) :=
  match groupThen r with
  | some d => some d
  | none => wsPlusDesc r

/-- `str.match(paramTagRgx)` of markdown.js line 12, returning the three
capture groups (type, name, description) or `none` when the regex does not
match. -/
def matchParamTag (s : List Char) : Option (List Char × List Char × List Char) :=
  match s with
  | '{' :: r1 =>
      match r1.takeWhile isTypeChar, r1.dropWhile isTypeChar with
      | [], _ => none
      | ty, '}' :: r2 =>
          match r2.takeWhile jsWs, r2.dropWhile jsWs with
          | [], _ => none
          | _, r3 =>
              match r3.takeWhile isNameChar, r3.dropWhile isNameChar with
              | [], _ => none
              | nm, r4 => (matchTail r4).map (fun d => (ty, nm, d))
      | _, _ => none
  | _ => none

/-- `str.match(descTagRgx)` of markdown.js line 11: capture groups
(name, description) or `none`. -/
def matchDescTag (s : List Char) : Option (List Char × List Char) :=
  match s.takeWhile isNameChar, s.dropWhile isNameChar with
  | [], _ => none
  | nm, r => (matchTail r).map (fun d => (nm, d))

/-- `str.match(returnsTagRgx)` of markdown.js line 13: capture groups
(type, description) or `none`. -/
def matchReturnsTag (s : List Char) : Option (List Char × List Char) :=
  match s with
  | '{' :: r1 =>
      match r1.takeWhile isTypeChar, r1.dropWhile isTypeChar with
      | [], _ => none
      | ty, '}' :: r2 => (wsPlusDesc r2).map (fun d => (ty, d))
      | _, _ => none
  | _ => none

example : matchParamTag "{Number} my_var - desc".data = none := by decide
example : matchParamTag "{T} ab - cd".data = some ("T".data, "ab".data, "cd".data) := by decide
example : matchDescTag "getUsernames - fetch usernames".data =
    some ("getUsernames".data, "fetch usernames".data) := by decide

/-- markdown.js line 16: first tag of the given type, `none` if absent. -/
def getTagByType (tags : List Tag) (type : String) : Option Tag :=
  (tags.filter (fun t => t.type == type)).head?

/-- markdown.js lines 18-22, `getCommentNameAndDesc`.  The JS function
dereferences `descTag.string` and `match[1]` without guards, so a missing
`desc` tag or a non-matching string raises a `TypeError`: both are `none`
here. -/
def getCommentNameAndDesc (c : Comment) : Option String :=
  match getTagByType c.tags "desc" with
  | none => none
  | some t =>
      match matchDescTag t.string.data with
      | none => none
      | some (nm, d) => some ("### " ++ String.mk nm ++ "\n" ++ String.mk d ++ "\n<br><br>\n")

/-- markdown.js line 24, `getCommentTableHead`. -/
def getCommentTableHead (heading : String) : String :=
  "#### " ++ heading ++ "\nName | Type | Description\n--- | --- | ---\n"

/-- markdown.js lines 33-42, the row rendered for a single param/data tag:
the empty string when the tag string fails `paramTagRgx` ("Skip if tag is
badly formatted"), otherwise `name | ⟨type⟩ | description`. -/
def rowOf (t : Tag) : String :=
  match matchParamTag t.string.data with
  | none => ""
  | some (ty, nm, d) =>
      String.mk nm ++ " | `" ++ String.mk ty ++ "` | " ++ String.mk d ++ "\n"

/-- markdown.js lines 26-45, `getCommentTableRows`: `none` when the comment
has no tag of the requested type (JS `null`), otherwise the concatenated
rows followed by a newline. -/
def getCommentTableRows (c : Comment) (tagType : String) : Option String :=
  let tags := c.tags.filter (fun t => t.type == tagType)
  if tags.isEmpty then none
  else some (String.join (tags.map rowOf) ++ "\n")

/-- markdown.js lines 47-62, `getCommentReturns`: empty string when the
`returns` tag is absent or badly formatted. -/
def getCommentReturns (c : Comment) : String :=
  match getTagByType c.tags "returns" with
  | none => ""
  | some t =>
      match matchReturnsTag t.string.data with
      | none => ""
      | some (ty, d) =>
          "#### Returns\n`" ++ String.mk ty ++ "` " ++ String.mk d ++ "\n<br><br>\n"

/-- markdown.js lines 68-86, `getCommentString`: heading, then the optional
Params and Data tables, then the returns block.  `none` propagates the
`TypeError` of `getCommentNameAndDesc`. -/
def getCommentString (c : Comment) : Option String :=
  (getCommentNameAndDesc c).map (fun base =>
    let p := match getCommentTableRows c "param" with
      | some r => getCommentTableHead "Params" ++ r
      | none => ""
    let d := match getCommentTableRows c "data" with
      | some r => getCommentTableHead "Data" ++ r
      | none => ""
    base ++ p ++ d ++ getCommentReturns c)

/-! ## writer.js: filename derivation and the mkdocs.yml manifest -/

/-- writer.js line 27 character step, restricted to the basic-latin
fragment: `Char.toLower` is exactly `A..Z ↦ a..z`.  This is NOT the whole
of JS `String.prototype.toLowerCase`, which performs the full Unicode
default case conversion — context-sensitive and sometimes one-to-many
(e.g. U+0130 lowercases to two code points) — and so cannot be captured by
a `Char → Char` map; the model is faithful only on strings whose cased
letters are basic latin. -/
def jsToLower (c : Char) : Char := c.toLower

/-- writer.js line 27, `formatFilename` on the code-point list: replace
every run of `\s+` whitespace by a single `-` on the lower-cased text.
`inRun` records that the previous character belonged to a whitespace run
already replaced. -/
def collapseWs : Bool → List Char → List Char
  | _, [] => []
  | inRun, c :: rest =>
      if jsWs c then
        if inRun then collapseWs true rest else '-' :: collapseWs true rest
      else c :: collapseWs false rest

/-- writer.js line 27:
`pageName.toLowerCase().replace(/\s+/gu, '-')`. -/
def formatFilename (pageName : String) : String :=
  String.mk (collapseWs false (pageName.data.map jsToLower))

example : formatFilename "Page Name" = "page-name" := by decide
example : formatFilename "A  B\t C" = "a-b-c" := by decide

/-- writer.js lines 17-25, `newLine`: four spaces per indent level, with a
leading line break. -/
def indentStr : Nat → String → String
  | 0, s => s
  | n + 1, s => indentStr n ("    " ++ s)

/-- writer.js `newLine(string, indent)`. -/
def newLine (s : String) (indent : Nat) : String := "\n" ++ indentStr indent s

/-- `path.join` of relative segments below the document's `docs` root,
followed by writer.js line 67's `.replace(/\\/gu, '/')`: a forward-slash
join.  writer.js line 66 computes the relative path by stripping the write
path with the greedy `/^.*docs[\/\\]?(.*)$/`, which cuts through the LAST
occurrence of `docs` — for a top-level page the result is exactly the
filename, and for nested pages it is the parent-directory chain provided
no ancestor directory name itself contains `docs` (a deeper-nesting
infidelity of this model; the theorems below only use the top-level
case). -/
def joinSlash : List String → String
  | [] => ""
  | [s] => s
  | s :: rest => s ++ "/" ++ joinSlash rest

mutual

/-- writer.js lines 45-71, `writePages`, restricted to what it writes into
the `mkdocs.yml` stream: a navigation line per node; a node whose
`subPages` field is present (JS truthiness: even an empty array nests)
recurses with one more indent level into a directory named after it, and a
node without `subPages` appends ` 'dir/.../page-name.md'` — the file path
derived from the page names alone.  `relPath` is the accumulated directory
chain below the `docs` root. -/
def pagesManifest : PageNode → List String → Nat → String
  | ⟨name, none, _⟩, relPath, ind =>
      newLine ("- '" ++ name ++ "':") ind ++
        " '" ++ joinSlash (relPath ++ [formatFilename name ++ ".md"]) ++ "'"
  | ⟨name, some sps, _⟩, relPath, ind =>
      newLine ("- '" ++ name ++ "':") ind ++
        pagesManifestList sps (relPath ++ [formatFilename name]) (ind + 1)

/-- The `docsTree.subPages.forEach(...)` loop of `writePages`, concatenated
in order. -/
def pagesManifestList : List PageNode → List String → Nat → String
  | [], _, _ => ""
  | p :: ps, rp, ind => pagesManifest p rp ind ++ pagesManifestList ps rp ind

end

/-- generateDocs lines 104-105 plus writeMkdocs lines 73-85, restricted to
the content of the `mkdocs.yml` stream: `site_name`, the `pages:` header,
the Home entry, then the `writePages` output for each sub page.
writeMkdocs dereferences `docsTree.subPages.forEach` without a guard, so a
root tree whose `subPages` field is absent raises a `TypeError`: `none`
here. -/
def writeMkdocs (dt : RootTree) : Option String :=
  dt.subPages.map (fun sps =>
    "site_name: " ++ dt.docsName ++ newLine "pages:" 0 ++
      newLine "- Home: 'index.md'" 0 ++ pagesManifestList sps [] 0)

/-! ## Specification-side helpers (orders, routing, navigation, lookup) -/

/-- Append a name unless already present: one step of first-seen
deduplication. -/
def insertName (acc : List String) (n : String) : List String :=
  if n ∈ acc then acc else acc ++ [n]

/-- The distinct values of a list in first-seen order. -/
def firstSeen (l : List String) : List String := l.foldl insertName []

/-- The parsed path of a comment, `[]` when the `docs` tag is missing. -/
def pathD (c : Comment) : List String := (parsePathNames c).getD []

/-- The document name a comment is routed to (segment 0). -/
def docNameOf (c : Comment) : Option String :=
  (parsePathNames c).map (fun pns => pns.headD "")

/-- Total variant of `docNameOf`. -/
def docNameD (c : Comment) : String := (pathD c).headD ""

/-- Of a remaining path (all parsed segments after the document name): the
chain of page names `buildPages` descends through. -/
def remPath (tl : List String) : List String := tl.dropLast

/-- Of a remaining path: the sections key `buildPages` finally pushes on
(`"undefined"` when no segment remains, see `sectionKeyOf`). -/
def remKey (tl : List String) : String :=
  match tl.getLast? with
  | none => "undefined"
  | some s => s

/-- The page-name chain a comment is routed through. -/
def pagePathC (c : Comment) : List String := remPath ((pathD c).drop 1)

/-- The sections key a comment is routed to. -/
def keyOfC (c : Comment) : String := remKey ((pathD c).drop 1)

/-- Does the comment land at page path `π` of the document named `d`? -/
def routesToNode (c : Comment) (d : String) (π : List String) : Bool :=
  (parsePathNames c).isSome && docNameD c == d && pagePathC c == π

/-- Does the comment land in the sections entry `k` at page path `π` of the
document named `d`? -/
def routesTo (c : Comment) (d : String) (π : List String) (k : String) : Bool :=
  routesToNode c d π && keyOfC c == k

/-- First sub page with the given name (builder.js line 18's
`filter(...)[0]`, as also read back by navigation). -/
def findPage (l : List PageNode) (p : String) : Option PageNode :=
  (l.filter (fun sp => sp.pageName == p)).head?

/-- Navigate from a page node along a chain of page names. -/
def navPage : PageNode → List String → Option PageNode
  | t, [] => some t
  | t, p :: ps =>
      match findPage (t.subPages.getD []) p with
      | none => none
      | some sp => navPage sp ps

/-- The sections dictionary of the node reached from `t` by `π` (reading an
absent `sections` field as the empty dictionary), `none` when no such node
exists. -/
def pageSecsAt (t : PageNode) (π : List String) : Option Sections :=
  (navPage t π).map (fun n => n.sections.getD [])

/-- The sections dictionary of the node reached from the root by the page
path `π`. -/
def rootSecsAt (r : RootTree) : List String → Option Sections
  | [] => some (r.sections.getD [])
  | p :: ps =>
      match findPage (r.subPages.getD []) p with
      | none => none
      | some sp => pageSecsAt sp ps

/-- The comment list stored under key `k` of a sections dictionary (first
entry with that key; `[]` when absent). -/
def lookupSecs (k : String) (secs : Sections) : List Comment :=
  match secs.find? (fun e => e.1 == k) with
  | some e => e.2
  | none => []

/-- All comments of a sections dictionary, in dictionary order. -/
def secsAll (secs : Sections) : List Comment := secs.flatMap (fun e => e.2)

mutual

/-- All comments stored in sections dictionaries anywhere in a page
subtree. -/
def pageAll : PageNode → List Comment
  | ⟨_, none, secs⟩ => secsAll (secs.getD [])
  | ⟨_, some sps, secs⟩ => secsAll (secs.getD []) ++ pagesAll sps

/-- All comments stored in sections dictionaries of a list of page
subtrees. -/
def pagesAll : List PageNode → List Comment
  | [] => []
  | p :: ps => pageAll p ++ pagesAll ps

end

/-- All comments stored in sections dictionaries anywhere in a document
tree. -/
def rootAll (r : RootTree) : List Comment :=
  secsAll (r.sections.getD []) ++ pagesAll (r.subPages.getD [])

/-- Does the string begin or end with a JS whitespace character? -/
def hasOuterWs (s : String) : Bool :=
  ((s.data.head?.map jsWs).getD false) || ((s.data.getLast?.map jsWs).getD false)

/-! ## Claims -/

/-- C2, counterexample: the path parser does not trim each returned
segment.  On the directive string `" A // B "` it returns `[" A", "B "]`:
whitespace at the ends of the whole directive survives into the first and
last segment, so returned segments can carry surrounding whitespace. -/
theorem c2_counterexample :
    splitPathString " A // B " = [" A", "B "] ∧
    hasOuterWs " A" = true ∧ hasOuterWs "B " = true := by
  decide

/-- C2, amended: for `"A // B // C"` the parser returns `["A","B","C"]` and
for `"A"` it returns `["A"]`; splitting is on two forward slashes, and the
whitespace adjacent to a separator is consumed by the separator match, but
segments are not independently trimmed — whitespace at the ends of the
whole directive string remains on the first/last segment. -/
theorem c2_amended :
    splitPathString "A // B // C" = ["A", "B", "C"] ∧
    splitPathString "A" = ["A"] ∧
    parsePathNames ⟨[⟨"docs", "A // B // C"⟩], 0⟩ = some ["A", "B", "C"] ∧
    splitPathString "A  //   B" = ["A", "B"] ∧
    splitPathString " A // B " = [" A", "B "] := by
  decide

/-- C3 (code bug): for a document whose single comment carries the
single-segment directive `"A"`, the built tree indeed has no page nodes and
only a root sections dictionary, but the sections key is the string
`"undefined"` (from indexing `pathNames[0]` on an empty array), not the
document name; and `writeMkdocs` then crashes with a `TypeError`
(modelled `none`) because the root tree never received a `subPages` field,
instead of rendering a flat document. -/
theorem c3_single_segment_document :
    getDocsTrees [⟨[⟨"docs", "A"⟩], 0⟩] =
      some [⟨"A", [⟨[⟨"docs", "A"⟩], 0⟩], none, some [("undefined", [⟨[⟨"docs", "A"⟩], 0⟩])]⟩] ∧
    writeMkdocs ⟨"A", [⟨[⟨"docs", "A"⟩], 0⟩], none, some [("undefined", [⟨[⟨"docs", "A"⟩], 0⟩])]⟩ =
      none := by
  exact ⟨rfl, rfl⟩

/-- C6 (code bug): the comment renderer crashes (modelled `none`) instead
of omitting or flagging the heading, both when the `desc` tag is absent and
when its string fails the `<name> - <description>` pattern. -/
theorem c6_desc_heading_crashes :
    getCommentNameAndDesc ⟨[], 0⟩ = none ∧
    getCommentString ⟨[], 0⟩ = none ∧
    getCommentNameAndDesc ⟨[⟨"desc", "badstring"⟩], 1⟩ = none ∧
    getCommentString ⟨[⟨"desc", "badstring"⟩], 1⟩ = none := by
  decide

/-! ### Idempotence of formatFilename on the modelled (basic-latin)
fragment

`formatFilename` as defined above restricts `toLowerCase` to its
basic-latin fragment (see `jsToLower`), so the idempotence result below is
a result about that fragment, not about the full Unicode case conversion
the program performs on non-ASCII cased letters. -/

/-- `Char.ofNat` at a scalar value below the surrogate range. -/
theorem toNat_ofNat_valid (m : Nat) (h : m < 55296) : (Char.ofNat m).toNat = m := by
  have hv : m.isValidChar := Or.inl h
  simp [Char.ofNat, hv, Char.ofNatAux, Char.toNat, UInt32.toNat, BitVec.toNat_ofNatLt]

/-- `Char.toLower` written as a conditional on the code point. -/
theorem toLower_eq (c : Char) :
    Char.toLower c = if 65 ≤ c.toNat ∧ c.toNat ≤ 90 then Char.ofNat (c.toNat + 32) else c := rfl

/-- The code point of `Char.toLower`. -/
theorem toLower_toNat (c : Char) :
    (Char.toLower c).toNat = if 65 ≤ c.toNat ∧ c.toNat ≤ 90 then c.toNat + 32 else c.toNat := by
  rw [toLower_eq]
  split
  · next h => rw [toNat_ofNat_valid _ (by omega)]
  · rfl

/-- Lower-casing is idempotent. -/
theorem toLower_idem (c : Char) : (Char.toLower c).toLower = Char.toLower c := by
  rw [toLower_eq (Char.toLower c)]
  have ht := toLower_toNat c
  by_cases h : 65 ≤ (Char.toLower c).toNat ∧ (Char.toLower c).toNat ≤ 90
  · exfalso
    rw [ht] at h
    by_cases hu : 65 ≤ c.toNat ∧ c.toNat ≤ 90
    · rw [if_pos hu] at h; omega
    · rw [if_neg hu] at h; exact hu h
  · rw [if_neg h]

/-- Lower-casing neither creates nor destroys JS whitespace. -/
theorem jsWs_toLower (c : Char) : jsWs (Char.toLower c) = jsWs c := by
  by_cases hu : 65 ≤ c.toNat ∧ c.toNat ≤ 90
  · have h1 : (Char.toLower c).toNat = c.toNat + 32 := by rw [toLower_toNat, if_pos hu]
    have hl : jsWs (Char.toLower c) = false := by simp [jsWs, h1]; omega
    have hr : jsWs c = false := by simp [jsWs]; omega
    rw [hl, hr]
  · have h1 : Char.toLower c = c := by rw [toLower_eq, if_neg hu]
    rw [h1]

/-- Characters of a collapsed list are the replacement hyphen or
non-whitespace characters of the input. -/
theorem mem_collapseWs {x : Char} :
    ∀ {b : Bool} {l : List Char}, x ∈ collapseWs b l → x = '-' ∨ (x ∈ l ∧ jsWs x = false) := by
  intro b l
  induction l generalizing b with
  | nil => intro h; simp [collapseWs] at h
  | cons c rest ih =>
    intro h
    by_cases hws : jsWs c
    · simp only [collapseWs, hws, if_true] at h
      cases b with
      | true =>
        simp only [if_true] at h
        rcases ih h with h' | ⟨hm, hw⟩
        · exact Or.inl h'
        · exact Or.inr ⟨List.mem_cons_of_mem _ hm, hw⟩
      | false =>
        simp only [Bool.false_eq_true, if_false] at h
        rcases List.mem_cons.mp h with h' | h'
        · exact Or.inl h'
        · rcases ih h' with h'' | ⟨hm, hw⟩
          · exact Or.inl h''
          · exact Or.inr ⟨List.mem_cons_of_mem _ hm, hw⟩
    · simp only [collapseWs, hws, Bool.false_eq_true, if_false] at h
      rcases List.mem_cons.mp h with h' | h'
      · subst h'; exact Or.inr ⟨List.mem_cons_self _ _, by simpa using hws⟩
      · rcases ih h' with h'' | ⟨hm, hw⟩
        · exact Or.inl h''
        · exact Or.inr ⟨List.mem_cons_of_mem _ hm, hw⟩

/-- Collapsing is the identity on whitespace-free text. -/
theorem collapseWs_noWs : ∀ {l : List Char}, (∀ x ∈ l, jsWs x = false) → collapseWs false l = l := by
  intro l
  induction l with
  | nil => intro _; rfl
  | cons c rest ih =>
    intro h
    have hc : jsWs c = false := h c (List.mem_cons_self _ _)
    simp only [collapseWs, hc, Bool.false_eq_true, if_false]
    rw [ih (fun x hx => h x (List.mem_cons_of_mem _ hx))]

/-- Mapping a function that fixes every member is the identity. -/
theorem map_fix : ∀ {l : List Char} {f : Char → Char}, (∀ x ∈ l, f x = x) → l.map f = l := by
  intro l f
  induction l with
  | nil => intro _; rfl
  | cons c rest ih =>
    intro h
    simp only [List.map_cons, h c (List.mem_cons_self _ _)]
    rw [ih (fun x hx => h x (List.mem_cons_of_mem _ hx))]

/-- `formatFilename` — lower-case (basic-latin fragment), then collapse
each whitespace run to one hyphen — is idempotent on every string of this
model. -/
theorem formatFilename_ascii_idem (x : String) :
    formatFilename (formatFilename x) = formatFilename x := by
  simp only [formatFilename]
  congr 1
  have hmem : ∀ y ∈ collapseWs false (x.data.map jsToLower),
      jsToLower y = y ∧ jsWs y = false := by
    intro y hy
    rcases mem_collapseWs hy with h | ⟨hmem, hws⟩
    · subst h; exact ⟨by decide, by decide⟩
    · rcases List.mem_map.mp hmem with ⟨z, _, rfl⟩
      exact ⟨toLower_idem z, hws⟩
  rw [map_fix (fun y hy => (hmem y hy).1)]
  exact collapseWs_noWs (fun y hy => (hmem y hy).2)

/-! ### pushSection lemmas -/

/-- Pushing appends to the looked-up entry and leaves other keys alone. -/
theorem lookupSecs_pushSection (s : Sections) (k k' : String) (c : Comment) :
    lookupSecs k (pushSection s k' c) =
      if k = k' then lookupSecs k s ++ [c] else lookupSecs k s := by
  induction s with
  | nil =>
    by_cases h : k = k'
    · subst h; simp [pushSection, lookupSecs, List.find?]
    · have hb : (k' == k) = false := by simp [Ne.symm h]
      simp [pushSection, lookupSecs, List.find?, hb, h]
  | cons e rest ih =>
    obtain ⟨k0, cs0⟩ := e
    by_cases h0 : k0 = k'
    · subst h0
      by_cases h : k = k0
      · subst h; simp [pushSection, lookupSecs, List.find?]
      · have hb : (k0 == k) = false := by simp [Ne.symm h]
        simp [pushSection, lookupSecs, List.find?, hb, h]
    · by_cases h : k = k0
      · subst h
        have hb : (k == k) = true := by simp
        simp [pushSection, lookupSecs, List.find?, hb, h0, Ne.symm h0]
      · have hb : (k0 == k) = false := by simp [Ne.symm h]
        simp only [pushSection, if_neg h0]
        simp only [lookupSecs, List.find?, hb] at ih ⊢
        exact ih

/-- Pushing inserts the key at first use and preserves key order. -/
theorem keys_pushSection (s : Sections) (k : String) (c : Comment) :
    (pushSection s k c).map Prod.fst = insertName (s.map Prod.fst) k := by
  induction s with
  | nil => simp [pushSection, insertName]
  | cons e rest ih =>
    obtain ⟨k0, cs0⟩ := e
    by_cases h0 : k0 = k
    · subst h0
      simp [pushSection, insertName]
    · simp only [pushSection, if_neg h0, List.map_cons, ih, insertName]
      by_cases hk : k ∈ rest.map Prod.fst
      · simp [hk, Ne.symm h0]
      · simp [hk, Ne.symm h0]

/-- Pushing adds exactly the pushed comment to the flattened contents. -/
theorem count_secsAll_pushSection (s : Sections) (k : String) (c x : Comment) :
    (secsAll (pushSection s k c)).count x =
      (secsAll s).count x + if x = c then 1 else 0 := by
  induction s with
  | nil =>
    by_cases h : x = c
    · subst h; simp [pushSection, secsAll, List.count_cons]
    · simp [pushSection, secsAll, List.count_cons, Ne.symm h, h]
  | cons e rest ih =>
    obtain ⟨k0, cs0⟩ := e
    by_cases h0 : k0 = k
    · subst h0
      by_cases h : x = c
      · subst h
        simp [pushSection, secsAll, List.count_append, List.count_cons]
        omega
      · simp [pushSection, secsAll, List.count_append, List.count_cons, Ne.symm h, h]
    · simp only [pushSection, if_neg h0, secsAll, List.flatMap_cons, List.count_append]
      simp only [secsAll] at ih
      rw [ih]
      omega

/-- C9 (confirmed): empty path segments pass through unvalidated.  The
directive `"A //"` parses to `["A", ""]`; the built tree for it has a
sections entry whose key is the empty string holding the comment; and in
general `buildPages` on a remaining path `[""]` appends the comment to the
sections entry keyed by the empty string. -/
theorem c9_empty_segment :
    splitPathString "A //" = ["A", ""] ∧
    getDocsTrees [⟨[⟨"docs", "A //"⟩], 0⟩] =
      some [⟨"A", [⟨[⟨"docs", "A //"⟩], 0⟩], none, some [("", [⟨[⟨"docs", "A //"⟩], 0⟩])]⟩] ∧
    ∀ (t : RootTree) (c : Comment),
      lookupSecs "" ((buildPagesRoot t [""] c).sections.getD []) =
        lookupSecs "" (t.sections.getD []) ++ [c] := by
  refine ⟨by decide, rfl, ?_⟩
  intro t c
  have hb : buildPagesRoot t [""] c =
      { t with sections := some (pushSection (t.sections.getD []) "" c) } := rfl
  rw [hb]
  simpa using lookupSecs_pushSection (t.sections.getD []) "" "" c

/-! ### C5: manifest entry for a one-page, one-section document -/

/-- C5, counterexample: for the document built from the single directive
`"Doc // Page Name // Section Name"` (one page containing one section), the
manifest's single nested entry has the value `'page-name.md'` — the
filename is derived from the page name only and the section name does not
appear — not `'page-name/section-name.md'` as claimed. -/
theorem c5_counterexample :
    getDocsTrees [⟨[⟨"docs", "Doc // Page Name // Section Name"⟩], 0⟩] =
      some [⟨"Doc", [⟨[⟨"docs", "Doc // Page Name // Section Name"⟩], 0⟩],
        some [⟨"Page Name", none,
          some [("Section Name", [⟨[⟨"docs", "Doc // Page Name // Section Name"⟩], 0⟩])]⟩],
        none⟩] ∧
    writeMkdocs
        ⟨"Doc", [⟨[⟨"docs", "Doc // Page Name // Section Name"⟩], 0⟩],
          some [⟨"Page Name", none,
            some [("Section Name", [⟨[⟨"docs", "Doc // Page Name // Section Name"⟩], 0⟩])]⟩],
          none⟩ =
      some "site_name: Doc\npages:\n- Home: 'index.md'\n- 'Page Name': 'page-name.md'" ∧
    ("site_name: Doc\npages:\n- Home: 'index.md'\n- 'Page Name': 'page-name.md'" : String) ≠
      "site_name: Doc\npages:\n- Home: 'index.md'\n- 'Page Name': 'page-name/section-name.md'" := by
  refine ⟨rfl, by decide, by decide⟩

/-- C5, amended: for every document tree holding exactly one page that is a
leaf with sections, the manifest has the Home entry followed by one entry
named after the page whose value is `'<formatFilename page>.md'` at the
docs root: the filename is derived from the page name, pages nest as
directories, and section names never contribute to file paths. -/
theorem c5_amended (dt : RootTree) (pname sname : String) (cs : List Comment)
    (h : dt.subPages = some [⟨pname, none, some [(sname, cs)]⟩]) :
    writeMkdocs dt =
      some ("site_name: " ++ dt.docsName ++ newLine "pages:" 0 ++
        newLine "- Home: 'index.md'" 0 ++ newLine ("- '" ++ pname ++ "':") 0 ++
        " '" ++ formatFilename pname ++ ".md" ++ "'") := by
  rw [writeMkdocs, h]
  simp only [Option.map]
  congr 1
  simp [pagesManifestList, pagesManifest, joinSlash, String.append_empty,
    String.append_assoc]

/-- C5, witness for the amended theorem at a concrete tree. -/
theorem c5_amended_witness :
    writeMkdocs ⟨"Doc", [], some [⟨"Page Name", none, some [("Section Name", [])]⟩], none⟩ =
      some ("site_name: " ++ "Doc" ++ newLine "pages:" 0 ++
        newLine "- Home: 'index.md'" 0 ++ newLine ("- '" ++ "Page Name" ++ "':") 0 ++
        " '" ++ formatFilename "Page Name" ++ ".md" ++ "'") :=
  c5_amended ⟨"Doc", [], some [⟨"Page Name", none, some [("Section Name", [])]⟩], none⟩
    "Page Name" "Section Name" [] rfl

/-! ### C10: the row pattern only accepts restricted names and
descriptions -/

/-- Characters surviving `takeWhile` satisfy the predicate. -/
theorem all_takeWhile (p : Char → Bool) (l : List Char) : (l.takeWhile p).all p = true := by
  induction l with
  | nil => rfl
  | cons a as ih =>
    by_cases h : p a
    · simp [List.takeWhile, h, ih]
    · simp [List.takeWhile, h]

/-- A successful `descHere` match starts with a non-hyphen character. -/
theorem descHere_ok {l d : List Char} (h : descHere l = some d) :
    ∀ ch, d.head? = some ch → ch ≠ '-' := by
  cases l with
  | nil => simp [descHere] at h
  | cons a as =>
    simp only [descHere] at h
    split at h
    · next hcond =>
      cases h
      intro ch hch
      simp only [List.head?] at hch
      cases hch
      simp only [Bool.and_eq_true, decide_eq_true_eq] at hcond
      exact hcond.1.1
    · cases h

/-- `wsStarDesc` succeeds only via `descHere`. -/
theorem wsStarDesc_ok {l d : List Char} (h : wsStarDesc l = some d) :
    ∃ l', descHere l' = some d := by
  induction l with
  | nil => simp [wsStarDesc] at h
  | cons a as ih =>
    simp only [wsStarDesc] at h
    split at h
    · cases hm : wsStarDesc as with
      | some r => rw [hm] at h; cases h; exact ih hm
      | none => rw [hm] at h; exact ⟨a :: as, h⟩
    · exact ⟨a :: as, h⟩

/-- `wsPlusDesc` succeeds only via `descHere`. -/
theorem wsPlusDesc_ok {l d : List Char} (h : wsPlusDesc l = some d) :
    ∃ l', descHere l' = some d := by
  cases l with
  | nil => simp [wsPlusDesc] at h
  | cons a as =>
    simp only [wsPlusDesc] at h
    split at h
    · exact wsStarDesc_ok h
    · cases h

/-- `matchTail` succeeds only via `descHere`. -/
theorem matchTail_ok {l d : List Char} (h : matchTail l = some d) :
    ∃ l', descHere l' = some d := by
  simp only [matchTail] at h
  split at h
  · next hg =>
    cases h
    simp only [groupThen] at hg
    split at hg
    · cases hg
    · exact wsPlusDesc_ok hg
    · cases hg
  · exact wsPlusDesc_ok h

/-- Every successful `paramTagRgx` match binds a name drawn entirely from
the `[a-zA-Z0-9-.[\]]` class, a type drawn from `[a-zA-Z[\]]`, and a
description whose first character is not a hyphen. -/
theorem matchParamTag_ok (s ty nm d : List Char)
    (h : matchParamTag s = some (ty, nm, d)) :
    ty.all isTypeChar = true ∧ nm.all isNameChar = true ∧
      ∀ ch, d.head? = some ch → ch ≠ '-' := by
  unfold matchParamTag at h
  split at h
  · split at h
    · cases h
    · split at h
      · cases h
      · split at h
        · cases h
        · rcases Option.map_eq_some'.mp h with ⟨d', hmt, heq⟩
          injection heq with h1 h2
          injection h2 with h2 h3
          subst h1; subst h2; subst h3
          refine ⟨all_takeWhile _ _, all_takeWhile _ _, ?_⟩
          rcases matchTail_ok hmt with ⟨l', hl'⟩
          exact descHere_ok hl'
    · cases h
  · cases h

/-- C10 (confirmed): the row pattern accepts only names from the
`[a-zA-Z0-9-.[\]]` class and descriptions not beginning with a hyphen; on
the tag string `"{Number} my_var - desc"`, whose name token contains `_`,
the match fails and the renderer emits the empty row. -/
theorem c10_row_pattern :
    (∀ s ty nm d : List Char, matchParamTag s = some (ty, nm, d) →
      nm.all isNameChar = true ∧ ∀ ch, d.head? = some ch → ch ≠ '-') ∧
    matchParamTag "{Number} my_var - desc".data = none ∧
    rowOf ⟨"param", "{Number} my_var - desc"⟩ = "" := by
  refine ⟨?_, by decide, by decide⟩
  intro s ty nm d h
  exact (matchParamTag_ok s ty nm d h).2

/-- C10, witness: the general half of `c10_row_pattern` applied to a
concrete successful match. -/
theorem c10_row_pattern_witness :
    "ab".data.all isNameChar = true ∧
      ∀ ch, "cd".data.head? = some ch → ch ≠ '-' :=
  c10_row_pattern.1 "{T} ab - cd".data "T".data "ab".data "cd".data (by decide)

/-! ### C7: malformed rows never throw and never corrupt siblings -/

/-- `String.join` as a fold from an arbitrary prefix. -/
theorem join_go (l : List String) : ∀ init : String,
    l.foldl (fun r s => r ++ s) init = init ++ String.join l := by
  induction l with
  | nil => intro init; simp [String.join]
  | cons a as ih =>
    intro init
    simp only [List.foldl, String.join] at ih ⊢
    rw [ih (init ++ a), ih ("" ++ a), String.empty_append, String.append_assoc]

/-- `String.join` of a nonempty list. -/
theorem join_cons (x : String) (xs : List String) :
    String.join (x :: xs) = x ++ String.join xs := by
  simp only [String.join, List.foldl]
  rw [join_go xs ("" ++ x), String.empty_append]
  simp [String.join]

/-- `String.join` distributes over list append. -/
theorem join_append (a b : List String) :
    String.join (a ++ b) = String.join a ++ String.join b := by
  induction a with
  | nil => simp [String.join, String.empty_append]
  | cons x xs ih =>
    rw [List.cons_append, join_cons, join_cons, ih, String.append_assoc]

/-- C7 (code bug): the claim — rendering a comment with a malformed
param/data tag never throws, renders that tag as an empty row and leaves
sibling rows intact — is the spec's stated policy, but the program
violates its never-throws part: a comment whose only tag is the malformed
param tag `"{Number} my_var - desc"` still crashes the renderer (third
conjunct, `none` = `TypeError`), because `getCommentNameAndDesc` runs
first and lacks the guard (the same slip as C6).  The parts the code does
satisfy are proved in general: the table renderer itself always returns a
result, the malformed tag contributes exactly the empty row with every
sibling row rendered by the same per-tag function unchanged (first
conjunct), and rendering the whole comment completes whenever its heading
part does — the row machinery never aborts it (second conjunct). -/
theorem c7_malformed_row (c : Comment) (tagType : String) (pre post : List Tag) (bad : Tag)
    (hsplit : c.tags.filter (fun t => t.type == tagType) = pre ++ bad :: post)
    (hbad : matchParamTag bad.string.data = none) :
    getCommentTableRows c tagType =
      some (String.join (pre.map rowOf) ++ String.join (post.map rowOf) ++ "\n") ∧
    ((getCommentNameAndDesc c).isSome → (getCommentString c).isSome) ∧
    getCommentString ⟨[⟨"param", "{Number} my_var - desc"⟩], 0⟩ = none := by
  refine ⟨?_, ?_, by decide⟩
  · simp only [getCommentTableRows, hsplit]
    rw [if_neg (by simp)]
    congr 1
    rw [List.map_append, join_append, List.map_cons, join_cons]
    have hrow : rowOf bad = "" := by simp [rowOf, hbad]
    rw [hrow, String.empty_append, String.append_assoc]
  · intro hs
    rcases Option.isSome_iff_exists.mp hs with ⟨s, hsome⟩
    simp [getCommentString, hsome]

/-- C7, witness: a comment with a well-formed heading, one malformed param
tag and one well-formed param tag. -/
theorem c7_malformed_row_witness :
    getCommentTableRows
        ⟨[⟨"desc", "getUsernames - fetch usernames"⟩,
          ⟨"param", "{Number} my_var - desc"⟩, ⟨"param", "{T} ab - cd"⟩], 0⟩ "param" =
      some (String.join ([].map rowOf) ++
        String.join ([(⟨"param", "{T} ab - cd"⟩ : Tag)].map rowOf) ++ "\n") ∧
    ((getCommentNameAndDesc
        ⟨[⟨"desc", "getUsernames - fetch usernames"⟩,
          ⟨"param", "{Number} my_var - desc"⟩, ⟨"param", "{T} ab - cd"⟩], 0⟩).isSome →
      (getCommentString
        ⟨[⟨"desc", "getUsernames - fetch usernames"⟩,
          ⟨"param", "{Number} my_var - desc"⟩, ⟨"param", "{T} ab - cd"⟩], 0⟩).isSome) ∧
    getCommentString ⟨[⟨"param", "{Number} my_var - desc"⟩], 0⟩ = none :=
  c7_malformed_row
    ⟨[⟨"desc", "getUsernames - fetch usernames"⟩,
      ⟨"param", "{Number} my_var - desc"⟩, ⟨"param", "{T} ab - cd"⟩], 0⟩
    "param" [] [⟨"param", "{T} ab - cd"⟩] ⟨"param", "{Number} my_var - desc"⟩
    (by decide) (by decide)

/-! ### C1: every comment lands in exactly one sections list -/

/-- `pageAll` without the case split on `subPages`. -/
theorem pageAll_eq (t : PageNode) :
    pageAll t = secsAll (t.sections.getD []) ++ pagesAll (t.subPages.getD []) := by
  obtain ⟨n, sps, secs⟩ := t
  cases sps <;> simp [pageAll, pagesAll]

/-- Replacing the first page named `p` by a rebuilt node that gained `δ`
copies of `x` changes the flattened contents by `δ`. -/
theorem count_pagesAll_setPage (x : Comment) (δ : Nat) :
    ∀ (l : List PageNode) (p : String) (v : PageNode),
    (pageAll v).count x = (pageAll (getPageD l p)).count x + δ →
    (pagesAll (setPage l p v)).count x = (pagesAll l).count x + δ := by
  intro l
  induction l with
  | nil =>
    intro p v hv
    simp only [setPage, pagesAll, getPageD, List.find?] at hv ⊢
    simp only [Option.getD_none] at hv
    simp [pageAll, pagesAll, secsAll] at hv
    simp [List.count_append, hv]
  | cons sp sps ih =>
    intro p v hv
    by_cases hp : sp.pageName = p
    · have hb : (sp.pageName == p) = true := by simp [hp]
      simp only [getPageD, List.find?, hb, Option.getD_some] at hv
      simp only [setPage, if_pos hp, pagesAll, List.count_append, hv]
      omega
    · have hb : (sp.pageName == p) = false := by simp [hp]
      simp only [getPageD, List.find?, hb] at hv
      simp only [setPage, if_neg hp, pagesAll, List.count_append]
      rw [ih p v hv]
      omega

/-- `buildPages` adds exactly the routed comment to the subtree's flattened
contents. -/
theorem count_buildPages (x : Comment) :
    ∀ (pns : List String) (t : PageNode) (c : Comment),
    (pageAll (buildPages t pns c)).count x =
      (pageAll t).count x + if x = c then 1 else 0 := by
  intro pns
  induction pns with
  | nil =>
    intro t c
    rw [show buildPages t [] c
        = { t with sections := some (pushSection (t.sections.getD []) (sectionKeyOf []) c) }
      from rfl]
    rw [pageAll_eq, pageAll_eq]
    simp only [List.count_append, Option.getD_some]
    rw [count_secsAll_pushSection]
    omega
  | cons p rest ih =>
    intro t c
    cases rest with
    | nil =>
      rw [show buildPages t [p] c
          = { t with sections := some (pushSection (t.sections.getD []) (sectionKeyOf [p]) c) }
        from rfl]
      rw [pageAll_eq, pageAll_eq]
      simp only [List.count_append, Option.getD_some]
      rw [count_secsAll_pushSection]
      omega
    | cons q rs =>
      rw [show buildPages t (p :: q :: rs) c
          = { t with subPages := some (setPage (t.subPages.getD []) p
              (buildPages (getPageD (t.subPages.getD []) p) (q :: rs) c)) }
        from rfl]
      rw [pageAll_eq, pageAll_eq]
      simp only [List.count_append, Option.getD_some]
      rw [count_pagesAll_setPage x (if x = c then 1 else 0) (t.subPages.getD []) p _
        (ih (getPageD (t.subPages.getD []) p) c)]
      omega

/-- `buildPages` at the root adds exactly the routed comment. -/
theorem count_buildPagesRoot (x : Comment) (pns : List String) (t : RootTree) (c : Comment) :
    (rootAll (buildPagesRoot t pns c)).count x =
      (rootAll t).count x + if x = c then 1 else 0 := by
  match pns with
  | [] =>
    rw [show buildPagesRoot t [] c
        = { t with sections := some (pushSection (t.sections.getD []) (sectionKeyOf []) c) }
      from rfl]
    simp only [rootAll, List.count_append, Option.getD_some]
    rw [count_secsAll_pushSection]
    omega
  | [s] =>
    rw [show buildPagesRoot t [s] c
        = { t with sections := some (pushSection (t.sections.getD []) (sectionKeyOf [s]) c) }
      from rfl]
    simp only [rootAll, List.count_append, Option.getD_some]
    rw [count_secsAll_pushSection]
    omega
  | p :: q :: rs =>
    rw [show buildPagesRoot t (p :: q :: rs) c
        = { t with subPages := some (setPage (t.subPages.getD []) p
            (buildPages (getPageD (t.subPages.getD []) p) (q :: rs) c)) }
      from rfl]
    simp only [rootAll, List.count_append, Option.getD_some]
    rw [count_pagesAll_setPage x (if x = c then 1 else 0) (t.subPages.getD []) p _
      (count_buildPages x (q :: rs) (getPageD (t.subPages.getD []) p) c)]
    omega

/-- Folding `buildStep` over a comment list adds exactly those comments. -/
theorem count_foldBuild (x : Comment) :
    ∀ (L : List Comment) (t T : RootTree), L.foldlM buildStep t = some T →
    (rootAll T).count x = (rootAll t).count x + L.count x := by
  intro L
  induction L with
  | nil =>
    intro t T h
    simp only [List.foldlM_nil, pure, Option.some.injEq] at h
    subst h
    simp
  | cons c L' ih =>
    intro t T h
    simp only [List.foldlM_cons] at h
    cases hb : buildStep t c with
    | none => rw [hb] at h; cases h
    | some t1 =>
      rw [hb] at h
      simp only [Option.bind_eq_bind, Option.some_bind] at h
      rcases Option.map_eq_some'.mp hb with ⟨pns, _, ht1⟩
      have hc1 : (rootAll t1).count x = (rootAll t).count x + if x = c then 1 else 0 := by
        rw [← ht1]; exact count_buildPagesRoot x _ t c
      rw [ih t1 T h, hc1, List.count_cons]
      by_cases hxc : x = c
      · simp [hxc]; omega
      · have : (c == x) = false := by simp [Ne.symm hxc]
        simp [hxc, this]

/-- `updateOrAppendRoot` adds exactly the filed comment to the grouped
comment lists. -/
theorem count_updateOrAppendRoot (x c : Comment) (n : String) :
    ∀ (l : List RootTree),
    ((updateOrAppendRoot l n c).flatMap (fun r => r.comments)).count x =
      (l.flatMap (fun r => r.comments)).count x + if x = c then 1 else 0 := by
  intro l
  induction l with
  | nil =>
    simp only [updateOrAppendRoot, List.flatMap_cons, List.flatMap_nil, List.count_append]
    simp [List.count_cons]
    by_cases hxc : x = c
    · simp [hxc]
    · have : (c == x) = false := by simp [Ne.symm hxc]
      simp [hxc, this]
      exact Ne.symm hxc
  | cons dt rest ih =>
    by_cases hn : dt.docsName = n
    · simp only [updateOrAppendRoot, if_pos hn, List.flatMap_cons, List.count_append,
        List.count_append]
      by_cases hxc : x = c
      · simp [hxc, List.count_cons]; omega
      · have : (c == x) = false := by simp [Ne.symm hxc]
        simp [hxc, this, List.count_cons]
    · simp only [updateOrAppendRoot, if_neg hn, List.flatMap_cons, List.count_append, ih]
      omega

/-- Folding `assignStep` over the comment stream preserves comment
multiplicity in the grouped trees. -/
theorem count_assign (x : Comment) :
    ∀ (cs : List Comment) (acc res : List RootTree), cs.foldlM assignStep acc = some res →
    (res.flatMap (fun r => r.comments)).count x =
      (acc.flatMap (fun r => r.comments)).count x + cs.count x := by
  intro cs
  induction cs with
  | nil =>
    intro acc res h
    simp only [List.foldlM_nil, pure, Option.some.injEq] at h
    subst h
    simp
  | cons c cs' ih =>
    intro acc res h
    simp only [List.foldlM_cons] at h
    cases hb : assignStep acc c with
    | none => rw [hb] at h; cases h
    | some acc1 =>
      rw [hb] at h
      simp only [Option.bind_eq_bind, Option.some_bind] at h
      rcases Option.map_eq_some'.mp hb with ⟨pns, _, hacc1⟩
      have h1 : (acc1.flatMap (fun r => r.comments)).count x =
          (acc.flatMap (fun r => r.comments)).count x + if x = c then 1 else 0 := by
        rw [← hacc1]; exact count_updateOrAppendRoot x c _ acc
      rw [ih acc1 res h, h1, List.count_cons]
      by_cases hxc : x = c
      · simp [hxc]; omega
      · have : (c == x) = false := by simp [Ne.symm hxc]
        simp [hxc, this]

/-- A root tree as produced by the grouping pass: no `subPages` or
`sections` fields yet. -/
def cleanRoot (r : RootTree) : Prop := r.subPages = none ∧ r.sections = none

/-- `updateOrAppendRoot` only creates or updates clean roots. -/
theorem clean_updateOrAppendRoot (n : String) (c : Comment) :
    ∀ (l : List RootTree), (∀ r ∈ l, cleanRoot r) →
    ∀ r ∈ updateOrAppendRoot l n c, cleanRoot r := by
  intro l
  induction l with
  | nil =>
    intro _ r hr
    simp only [updateOrAppendRoot, List.mem_cons, List.not_mem_nil, or_false] at hr
    subst hr
    exact ⟨rfl, rfl⟩
  | cons dt rest ih =>
    intro hl r hr
    by_cases hn : dt.docsName = n
    · simp only [updateOrAppendRoot, if_pos hn, List.mem_cons] at hr
      rcases hr with hr | hr
      · subst hr
        have := hl dt (List.mem_cons_self _ _)
        exact ⟨this.1, this.2⟩
      · exact hl r (List.mem_cons_of_mem _ hr)
    · simp only [updateOrAppendRoot, if_neg hn, List.mem_cons] at hr
      rcases hr with hr | hr
      · subst hr; exact hl r (List.mem_cons_self _ _)
      · exact ih (fun r' hr' => hl r' (List.mem_cons_of_mem _ hr')) r hr

/-- All roots produced by the grouping fold are clean. -/
theorem assign_clean :
    ∀ (cs : List Comment) (acc res : List RootTree), cs.foldlM assignStep acc = some res →
    (∀ r ∈ acc, cleanRoot r) → ∀ r ∈ res, cleanRoot r := by
  intro cs
  induction cs with
  | nil =>
    intro acc res h hacc
    simp only [List.foldlM_nil, pure, Option.some.injEq] at h
    subst h
    exact hacc
  | cons c cs' ih =>
    intro acc res h hacc
    simp only [List.foldlM_cons] at h
    cases hb : assignStep acc c with
    | none => rw [hb] at h; cases h
    | some acc1 =>
      rw [hb] at h
      simp only [Option.bind_eq_bind, Option.some_bind] at h
      rcases Option.map_eq_some'.mp hb with ⟨pns, _, hacc1⟩
      refine ih acc1 res h ?_
      rw [← hacc1]
      exact clean_updateOrAppendRoot _ _ acc hacc

/-- Successful `mapM` means pointwise success. -/
theorem mapM_some_forall₂ {α β : Type} (f : α → Option β) :
    ∀ (l : List α) (res : List β), l.mapM f = some res →
    List.Forall₂ (fun a b => f a = some b) l res := by
  intro l
  induction l with
  | nil =>
    intro res h
    simp only [List.mapM_nil, pure, Option.some.injEq] at h
    subst h
    exact List.Forall₂.nil
  | cons a as ih =>
    intro res h
    rw [List.mapM_cons] at h
    cases hfa : f a with
    | none => rw [hfa] at h; cases h
    | some b =>
      rw [hfa] at h
      cases hrest : as.mapM f with
      | none => rw [hrest] at h; cases h
      | some bs =>
        rw [hrest] at h
        simp only [Option.bind_eq_bind, Option.some_bind, pure, Option.some.injEq] at h
        subst h
        exact List.Forall₂.cons hfa (ih bs hrest)

/-- Summing the per-tree count over the build pass. -/
theorem count_trees (x : Comment) :
    ∀ {roots trees : List RootTree},
    List.Forall₂ (fun r dt => buildTree r = some dt) roots trees →
    (∀ r ∈ roots, cleanRoot r) →
    (trees.flatMap rootAll).count x = (roots.flatMap (fun r => r.comments)).count x := by
  intro roots trees hf
  induction hf with
  | nil => intro _; simp
  | @cons r dt roots' trees' hpair _ ih =>
    intro hclean
    simp only [List.flatMap_cons, List.count_append]
    have hr : cleanRoot r := hclean r (List.mem_cons_self _ _)
    have hempty : rootAll r = [] := by
      simp [rootAll, hr.1, hr.2, secsAll, pagesAll]
    have := count_foldBuild x r.comments r dt hpair
    rw [hempty] at this
    simp only [List.count_nil, Nat.zero_add] at this
    rw [this, ih (fun r' hr' => hclean r' (List.mem_cons_of_mem _ hr'))]

/-- C1 (confirmed): for a duplicate-free comment stream on which
`getDocsTrees` succeeds (every comment carries a `docs` directive tag),
each input comment occurs exactly once among all sections lists of all
built trees: no duplication, no loss. -/
theorem c1_exactly_once (cs : List Comment) (trees : List RootTree)
    (h : getDocsTrees cs = some trees) (hnd : cs.Nodup) (c : Comment) (hc : c ∈ cs) :
    (trees.flatMap rootAll).count c = 1 := by
  simp only [getDocsTrees, bind, Option.bind] at h
  cases ha : assignCommentsToDocsTrees cs with
  | none => rw [ha] at h; cases h
  | some roots =>
    rw [ha] at h
    have hclean := assign_clean cs [] roots ha (by intro r hr; cases hr)
    have hcount := count_assign c cs [] roots ha
    simp only [List.flatMap_nil, List.count_nil, Nat.zero_add] at hcount
    rw [count_trees c (mapM_some_forall₂ buildTree roots trees h) hclean, hcount]
    exact List.count_eq_one_of_mem hnd hc

/-- C1, witness: two comments routed to one document, one in a nested page,
each appearing exactly once. -/
theorem c1_exactly_once_witness :
    ((((getDocsTrees [⟨[⟨"docs", "D // S"⟩], 0⟩, ⟨[⟨"docs", "D // P // S"⟩], 1⟩]).getD
        []).flatMap rootAll).count ⟨[⟨"docs", "D // S"⟩], 0⟩) = 1 := by
  have h := c1_exactly_once [⟨[⟨"docs", "D // S"⟩], 0⟩, ⟨[⟨"docs", "D // P // S"⟩], 1⟩]
    ((getDocsTrees [⟨[⟨"docs", "D // S"⟩], 0⟩, ⟨[⟨"docs", "D // P // S"⟩], 1⟩]).getD [])
    rfl (by decide) ⟨[⟨"docs", "D // S"⟩], 0⟩ (by decide)
  exact h

/-! ### C4: the tree builder and JS object key enumeration

The builder inserts section keys in first-seen order, and the association
list `Sections` records exactly that insertion sequence.  But the
`sections` dictionary is a plain JS object, and ECMAScript
`[[OwnPropertyKeys]]` (hence `Object.keys`, used by markdown.js's
`getMarkdownString`) enumerates array-index-like string keys — canonical
decimal integers below `2^32 - 1` — first, in ascending numeric order,
before the remaining string keys in insertion order.  `jsOwnKeys` models
that enumeration over the stored key sequence. -/

/-- The numeric value of a decimal digit string. -/
def digitsToNat (l : List Char) : Nat :=
  l.foldl (fun acc c => acc * 10 + (c.toNat - 48)) 0

/-- Is the string an ECMAScript array index: the canonical decimal form of
an integer in `[0, 2^32 - 2]`? -/
def isArrayIndexKey (s : String) : Bool :=
  match s.data with
  | [] => false
  | c :: rest =>
      (c :: rest).all Char.isDigit && (c ≠ '0' || rest.isEmpty) &&
        digitsToNat (c :: rest) ≤ 4294967294

/-- Insert a key into a numerically ascending list of array-index keys. -/
def insertIdx (k : String) : List String → List String
  | [] => [k]
  | k' :: rest =>
      if digitsToNat k.data ≤ digitsToNat k'.data then k :: k' :: rest
      else k' :: insertIdx k rest

/-- Sort array-index keys in ascending numeric order. -/
def sortIdxKeys : List String → List String
  | [] => []
  | k :: rest => insertIdx k (sortIdxKeys rest)

/-- ECMAScript `[[OwnPropertyKeys]]` on a string-keyed object whose keys
were created in the given order: array-index-like keys first, ascending
numerically, then the remaining keys in creation order. -/
def jsOwnKeys (keys : List String) : List String :=
  sortIdxKeys (keys.filter isArrayIndexKey) ++ keys.filter (fun k => !isArrayIndexKey k)

/-- Enumeration is creation order when no key is array-index-like. -/
theorem jsOwnKeys_of_noIndex {keys : List String}
    (h : ∀ k ∈ keys, isArrayIndexKey k = false) : jsOwnKeys keys = keys := by
  have h1 : keys.filter isArrayIndexKey = [] := by
    rw [List.filter_eq_nil_iff]
    intro k hk
    simp [h k hk]
  have h2 : keys.filter (fun k => !isArrayIndexKey k) = keys := by
    rw [List.filter_eq_self]
    intro k hk
    simp [h k hk]
  rw [jsOwnKeys, h1, h2]
  rfl

/-- C4, counterexample: for the directives `"D // 2"` then `"D // 1"` the
builder stores the section keys in first-seen order `"2", "1"`, but the
sections dictionary is a JS object whose key enumeration (what
`Object.keys` exposes) places the array-index-like keys in ascending
numeric order: `"1", "2"`.  Section names do not universally appear in
first-seen order. -/
theorem c4_counterexample :
    getDocsTrees [⟨[⟨"docs", "D // 2"⟩], 0⟩, ⟨[⟨"docs", "D // 1"⟩], 1⟩] =
      some [⟨"D", [⟨[⟨"docs", "D // 2"⟩], 0⟩, ⟨[⟨"docs", "D // 1"⟩], 1⟩], none,
        some [("2", [⟨[⟨"docs", "D // 2"⟩], 0⟩]), ("1", [⟨[⟨"docs", "D // 1"⟩], 1⟩])]⟩] ∧
    jsOwnKeys (([("2", [⟨[⟨"docs", "D // 2"⟩], 0⟩]),
        ("1", [⟨[⟨"docs", "D // 1"⟩], 1⟩])] : Sections).map Prod.fst) = ["1", "2"] ∧
    firstSeen ["2", "1"] = ["2", "1"] ∧
    jsOwnKeys ["2", "1"] ≠ firstSeen ["2", "1"] := by
  refine ⟨rfl, by decide, by decide, by decide⟩

/-- `find?` is the head of `filter`. -/
theorem find?_eq_filter_head? {α : Type} (p : α → Bool) :
    ∀ l : List α, l.find? p = (l.filter p).head? := by
  intro l
  induction l with
  | nil => rfl
  | cons a as ih =>
    cases h : p a with
    | true => simp only [List.find?, List.filter, h, List.head?]
    | false => simp only [List.find?, List.filter, h, ih]

/-- `buildPages` never renames a node. -/
theorem buildPages_pageName (t : PageNode) (pns : List String) (c : Comment) :
    (buildPages t pns c).pageName = t.pageName := by
  match pns with
  | [] => rfl
  | [s] => rfl
  | p :: q :: rs => rfl

/-- The node `getPage` hands to `buildPages` carries the requested name. -/
theorem getPageD_pageName (l : List PageNode) (p : String) : (getPageD l p).pageName = p := by
  induction l with
  | nil => rfl
  | cons sp sps ih =>
    by_cases h : sp.pageName = p
    · simp [getPageD, List.find?, h]
    · have hb : (sp.pageName == p) = false := by simp [h]
      simp only [getPageD, List.find?, hb]
      simpa [getPageD] using ih

/-- `findPage` after `setPage`: the named slot now holds the new node, all
other slots are untouched. -/
theorem findPage_setPage (p : String) (v : PageNode) (hv : v.pageName = p) :
    ∀ (l : List PageNode) (q : String),
    findPage (setPage l p v) q = if q = p then some v else findPage l q := by
  intro l
  induction l with
  | nil =>
    intro q
    by_cases hq : q = p
    · subst hq; simp [setPage, findPage, List.filter, hv]
    · have hb : (v.pageName == q) = false := by simp [hv, Ne.symm hq]
      simp [setPage, findPage, List.filter, hb, hq]
  | cons sp sps ih =>
    intro q
    by_cases hsp : sp.pageName = p
    · simp only [setPage, if_pos hsp]
      by_cases hq : q = p
      · subst hq
        simp [findPage, List.filter, hv, hsp]
      · have hb : (v.pageName == q) = false := by simp [hv, Ne.symm hq]
        have hb' : (sp.pageName == q) = false := by simp [hsp, Ne.symm hq]
        simp [findPage, List.filter, hb, hb', hq]
    · simp only [setPage, if_neg hsp]
      by_cases hq : sp.pageName = q
      · have hqp : ¬q = p := fun hh => hsp (hq.trans hh)
        simp [findPage, List.filter, hq, hqp]
      · have hb : (sp.pageName == q) = false := by simp [hq]
        simp only [findPage, List.filter, hb]
        have := ih q
        simp only [findPage] at this
        simpa [hb] using this

/-- Unfolding navigation one page down. -/
theorem pageSecsAt_cons (t : PageNode) (a : String) (ps : List String) :
    pageSecsAt t (a :: ps) =
      match findPage (t.subPages.getD []) a with
      | none => none
      | some sp => pageSecsAt sp ps := by
  simp only [pageSecsAt, navPage]
  cases findPage (t.subPages.getD []) a <;> rfl

/-- What navigation sees at a node untouched by an insertion: the old
dictionary if the node existed, a fresh empty dictionary if the insertion
just created it (`isPre`), nothing otherwise. -/
def navFallback (prev : Option Sections) (isPre : Bool) : Option Sections :=
  match prev with
  | some s => some s
  | none => if isPre then some [] else none

/-- A node untouched and not newly created keeps its dictionary. -/
theorem navFallback_false (prev : Option Sections) : navFallback prev false = prev := by
  cases prev with
  | none => simp [navFallback]
  | some s => rfl

/-- One `buildPages` call, seen through navigation: at the routed page path
the comment is pushed (onto a fresh dictionary if the node is new); any
other node keeps its dictionary, with fresh empty nodes appearing exactly
along the routed path. -/
theorem pageSecsAt_buildPages :
    ∀ (tl : List String) (t : PageNode) (c : Comment) (π : List String),
    pageSecsAt (buildPages t tl c) π =
      if π = remPath tl then
        some (pushSection ((pageSecsAt t π).getD []) (remKey tl) c)
      else navFallback (pageSecsAt t π) (π.isPrefixOf (remPath tl)) := by
  intro tl
  induction tl with
  | nil =>
    intro t c π
    rw [show buildPages t [] c
        = { t with sections := some (pushSection (t.sections.getD []) (sectionKeyOf []) c) }
      from rfl]
    cases π with
    | nil => rfl
    | cons a ps =>
      rw [pageSecsAt_cons, pageSecsAt_cons]
      rw [if_neg (by simp [remPath])]
      simp only [remPath, List.dropLast_nil, List.isPrefixOf]
      rw [navFallback_false]
  | cons p rest ih =>
    cases rest with
    | nil =>
      intro t c π
      rw [show buildPages t [p] c
          = { t with sections := some (pushSection (t.sections.getD []) (sectionKeyOf [p]) c) }
        from rfl]
      cases π with
      | nil => rfl
      | cons a ps =>
        rw [pageSecsAt_cons, pageSecsAt_cons]
        rw [if_neg (by simp [remPath])]
        simp only [remPath, List.dropLast_single, List.isPrefixOf]
        rw [navFallback_false]
    | cons q rs =>
      intro t c π
      have hvname : (buildPages (getPageD (t.subPages.getD []) p) (q :: rs) c).pageName = p :=
        (buildPages_pageName _ _ _).trans (getPageD_pageName _ _)
      have hremP : remPath (p :: q :: rs) = p :: remPath (q :: rs) := by
        simp [remPath, List.dropLast_cons₂]
      have hremK : remKey (p :: q :: rs) = remKey (q :: rs) := by
        simp [remKey, List.getLast?_cons_cons]
      rw [show buildPages t (p :: q :: rs) c
          = { t with subPages := some (setPage (t.subPages.getD []) p
              (buildPages (getPageD (t.subPages.getD []) p) (q :: rs) c)) }
        from rfl]
      cases π with
      | nil =>
        rw [if_neg (by simp [hremP]), hremP]
        rfl
      | cons a ps =>
        rw [pageSecsAt_cons]
        simp only [Option.getD_some]
        rw [findPage_setPage p _ hvname (t.subPages.getD []) a]
        by_cases hap : a = p
        · subst hap
          rw [if_pos rfl]
          rw [show (match some (buildPages (getPageD (t.subPages.getD []) a) (q :: rs) c) with
              | none => none
              | some sp => pageSecsAt sp ps)
            = pageSecsAt (buildPages (getPageD (t.subPages.getD []) a) (q :: rs) c) ps from rfl]
          rw [ih (getPageD (t.subPages.getD []) a) c ps]
          cases hf : findPage (t.subPages.getD []) a with
          | some sp =>
            have hw : getPageD (t.subPages.getD []) a = sp := by
              rw [getPageD, find?_eq_filter_head?]
              rw [show (((t.subPages.getD []).filter (fun x => x.pageName == a)).head?)
                  = findPage (t.subPages.getD []) a from rfl, hf]
              rfl
            have hprev : pageSecsAt t (a :: ps) = pageSecsAt sp ps := by
              rw [pageSecsAt_cons, hf]
            rw [hw, hprev, hremP, hremK]
            by_cases hps : ps = remPath (q :: rs)
            · rw [if_pos hps, if_pos (by rw [hps])]
            · rw [if_neg hps, if_neg (by simp [hps])]
              rw [List.isPrefixOf_cons₂]
              simp
          | none =>
            have hw : getPageD (t.subPages.getD []) a
                = { pageName := a, subPages := none, sections := none } := by
              rw [getPageD, find?_eq_filter_head?]
              rw [show (((t.subPages.getD []).filter (fun x => x.pageName == a)).head?)
                  = findPage (t.subPages.getD []) a from rfl, hf]
              rfl
            have hprev : pageSecsAt t (a :: ps) = none := by
              rw [pageSecsAt_cons, hf]
            have hfresh : pageSecsAt { pageName := a, subPages := none, sections := none } ps
                = if ps = [] then some [] else none := by
              cases ps with
              | nil => rfl
              | cons b ps' =>
                rw [pageSecsAt_cons]
                simp [findPage, List.filter]
            rw [hw, hprev, hfresh, hremP, hremK]
            by_cases hps : ps = remPath (q :: rs)
            · rw [if_pos hps]
              rw [if_pos (show a :: ps = a :: remPath (q :: rs) by rw [hps])]
              by_cases hnil : ps = []
              · rw [if_pos hnil]; rfl
              · rw [if_neg hnil]
            · rw [if_neg hps]
              rw [if_neg (show ¬a :: ps = a :: remPath (q :: rs) by simp [hps])]
              rw [List.isPrefixOf_cons₂]
              simp only [beq_self_eq_true, Bool.true_and]
              by_cases hnil : ps = []
              · subst hnil
                simp [navFallback, List.isPrefixOf]
              · rw [if_neg hnil]
        · rw [if_neg hap]
          rw [if_neg (by simp [hremP, hap]), hremP, List.isPrefixOf_cons₂]
          have hb : (a == p) = false := by simp [hap]
          rw [hb]
          have hprev : pageSecsAt t (a :: ps)
              = match findPage (t.subPages.getD []) a with
                | none => none
                | some sp => pageSecsAt sp ps := pageSecsAt_cons t a ps
          rw [← hprev]
          simp only [Bool.false_and]
          rw [navFallback_false]

/-- Root navigation is page navigation over the root's own fields. -/
theorem rootSecsAt_eq_pageSecsAt (r : RootTree) (π : List String) :
    rootSecsAt r π = pageSecsAt ⟨r.docsName, r.subPages, r.sections⟩ π := by
  cases π with
  | nil => rfl
  | cons a ps =>
    rw [pageSecsAt_cons]
    simp only [rootSecsAt]

/-- `rootSecsAt_buildPagesRoot`: the root-level reading of
`pageSecsAt_buildPages`. -/
theorem rootSecsAt_buildPagesRoot (tl : List String) (t : RootTree) (c : Comment)
    (π : List String) :
    rootSecsAt (buildPagesRoot t tl c) π =
      if π = remPath tl then
        some (pushSection ((rootSecsAt t π).getD []) (remKey tl) c)
      else navFallback (rootSecsAt t π) (π.isPrefixOf (remPath tl)) := by
  have h0 : (⟨(buildPagesRoot t tl c).docsName, (buildPagesRoot t tl c).subPages,
        (buildPagesRoot t tl c).sections⟩ : PageNode)
      = buildPages ⟨t.docsName, t.subPages, t.sections⟩ tl c := by
    match tl with
    | [] => rfl
    | [s] => rfl
    | p :: q :: rs => rfl
  rw [rootSecsAt_eq_pageSecsAt, h0, pageSecsAt_buildPages,
    ← rootSecsAt_eq_pageSecsAt]

/-- The accumulated effect on one sections dictionary of pushing a run of
comments (each under its own key) in order. -/
def extendS (secs : Sections) (R : List Comment) : Sections :=
  R.foldl (fun s c => pushSection s (keyOfC c) c) secs

/-- The fold of `buildStep` over a comment run, seen through navigation:
the node at `π` accumulates exactly the comments routed to page path `π`,
in order; nodes appear exactly along routed paths. -/
theorem rootSecsAt_foldBuild :
    ∀ (L : List Comment) (t T : RootTree), L.foldlM buildStep t = some T →
    ∀ π : List String,
    rootSecsAt T π =
      match rootSecsAt t π with
      | some s => some (extendS s (L.filter (fun c => pagePathC c == π)))
      | none =>
          if L.any (fun c => π.isPrefixOf (pagePathC c)) then
            some (extendS [] (L.filter (fun c => pagePathC c == π)))
          else none := by
  intro L
  induction L with
  | nil =>
    intro t T h π
    simp only [List.foldlM_nil, pure, Option.some.injEq] at h
    subst h
    simp only [List.filter_nil, List.any_nil, extendS, List.foldl_nil, Bool.false_eq_true,
      if_false]
    cases rootSecsAt t π <;> rfl
  | cons c L' ih =>
    intro t T h π
    simp only [List.foldlM_cons] at h
    cases hb : buildStep t c with
    | none => rw [hb] at h; cases h
    | some t1 =>
      rw [hb] at h
      simp only [Option.bind_eq_bind, Option.some_bind] at h
      rcases Option.map_eq_some'.mp hb with ⟨pns, hpns, ht1⟩
      have hpath : pathD c = pns := by simp [pathD, hpns]
      have hrem : remPath (pns.drop 1) = pagePathC c := by rw [pagePathC, hpath]
      have hkey : remKey (pns.drop 1) = keyOfC c := by rw [keyOfC, hpath]
      have hs1 : rootSecsAt t1 π =
          if π = pagePathC c then
            some (pushSection ((rootSecsAt t π).getD []) (keyOfC c) c)
          else navFallback (rootSecsAt t π) (π.isPrefixOf (pagePathC c)) := by
        rw [← ht1, rootSecsAt_buildPagesRoot, hrem, hkey]
      rw [ih t1 T h π, hs1]
      by_cases hππ : π = pagePathC c
      · have hfil : (c :: L').filter (fun c' => pagePathC c' == π)
            = c :: L'.filter (fun c' => pagePathC c' == π) := by
          rw [List.filter_cons, if_pos (by simp [hππ])]
        have hext : ∀ s, extendS (pushSection s (keyOfC c) c)
              (L'.filter (fun c' => pagePathC c' == π))
            = extendS s ((c :: L').filter (fun c' => pagePathC c' == π)) := by
          intro s
          rw [hfil]
          rfl
        rw [if_pos hππ]
        cases hprev : rootSecsAt t π with
        | some s =>
          simp only [Option.getD_some]
          rw [hext s]
        | none =>
          simp only [Option.getD_none]
          have hany : (c :: L').any (fun c' => π.isPrefixOf (pagePathC c')) = true := by
            rw [List.any_cons]
            have : π.isPrefixOf (pagePathC c) = true := by
              rw [hππ]
              exact List.isPrefixOf_iff_prefix.mpr (List.prefix_refl _)
            simp [this]
          rw [if_pos hany, hext []]
      · rw [if_neg hππ]
        have hfil : (c :: L').filter (fun c' => pagePathC c' == π)
            = L'.filter (fun c' => pagePathC c' == π) := by
          rw [List.filter_cons, if_neg (by simp [Ne.symm hππ])]
        cases hprev : rootSecsAt t π with
        | some s =>
          simp only [navFallback, hfil]
        | none =>
          simp only [navFallback]
          by_cases hpre : π.isPrefixOf (pagePathC c)
          · rw [if_pos hpre]
            have hany : (c :: L').any (fun c' => π.isPrefixOf (pagePathC c')) = true := by
              rw [List.any_cons]; simp [hpre]
            rw [if_pos hany, hfil]
          · have hpre' : π.isPrefixOf (pagePathC c) = false := by
              rw [← Bool.not_eq_true]
              exact hpre
            rw [hpre', if_neg (by simp)]
            have hany : (c :: L').any (fun c' => π.isPrefixOf (pagePathC c'))
                = L'.any (fun c' => π.isPrefixOf (pagePathC c')) := by
              rw [List.any_cons, hpre']
              simp
            rw [hany, hfil]

/-- `updateOrAppendRoot` inserts the name at first use and preserves the
document order. -/
theorem names_updateOrAppendRoot (n : String) (c : Comment) :
    ∀ l : List RootTree,
    (updateOrAppendRoot l n c).map (fun r => r.docsName)
      = insertName (l.map (fun r => r.docsName)) n := by
  intro l
  induction l with
  | nil => simp [updateOrAppendRoot, insertName]
  | cons dt rest ih =>
    by_cases hn : dt.docsName = n
    · simp [updateOrAppendRoot, hn, insertName]
    · simp only [updateOrAppendRoot, if_neg hn, List.map_cons, ih, insertName]
      by_cases hmem : n ∈ rest.map (fun r => r.docsName)
      · simp [hmem, Ne.symm hn]
      · simp [hmem, Ne.symm hn]

/-- The grouped comment list of the (first) tree of a given name. -/
def findComments (n : String) (l : List RootTree) : List Comment :=
  ((l.find? (fun r => r.docsName == n)).map (fun r => r.comments)).getD []

/-- `updateOrAppendRoot` appends the comment to exactly its document's
group. -/
theorem findComments_updateOrAppendRoot (n m : String) (c : Comment) :
    ∀ l : List RootTree,
    findComments n (updateOrAppendRoot l m c)
      = findComments n l ++ if n = m then [c] else [] := by
  intro l
  induction l with
  | nil =>
    by_cases hnm : n = m
    · subst hnm; simp [updateOrAppendRoot, findComments, List.find?]
    · have hb : (m == n) = false := by simp [Ne.symm hnm]
      simp [updateOrAppendRoot, findComments, List.find?, hb, hnm]
  | cons dt rest ih =>
    by_cases hdm : dt.docsName = m
    · by_cases hdn : dt.docsName = n
      · have hb : (dt.docsName == n) = true := by simp [hdn]
        have hbm : (dt.docsName == m) = true := by simp [hdm]
        have hnm : n = m := hdn.symm.trans hdm
        simp only [updateOrAppendRoot, if_pos hdm]
        simp [findComments, List.find?, hb, hbm, hnm]
      · have hb : (dt.docsName == n) = false := by simp [hdn]
        have hnm : ¬n = m := fun hh => hdn (hdm.trans hh.symm)
        simp only [updateOrAppendRoot, if_pos hdm]
        simp [findComments, List.find?, hb, hnm]
    · by_cases hdn : dt.docsName = n
      · have hb : (dt.docsName == n) = true := by simp [hdn]
        have hnm : ¬n = m := fun hh => hdm (hdn.trans hh)
        simp [updateOrAppendRoot, if_neg hdm, findComments, List.find?, hb, hnm]
      · have hb : (dt.docsName == n) = false := by simp [hdn]
        simp only [updateOrAppendRoot, if_neg hdm, findComments, List.find?, hb]
        simpa [findComments] using ih

/-- The grouping fold: document names appear in first-seen order. -/
theorem assign_names :
    ∀ (cs : List Comment) (acc res : List RootTree), cs.foldlM assignStep acc = some res →
    res.map (fun r => r.docsName)
      = cs.foldl (fun ns c => insertName ns (docNameD c)) (acc.map (fun r => r.docsName)) := by
  intro cs
  induction cs with
  | nil =>
    intro acc res h
    simp only [List.foldlM_nil, pure, Option.some.injEq] at h
    subst h
    rfl
  | cons c cs' ih =>
    intro acc res h
    simp only [List.foldlM_cons] at h
    cases hb : assignStep acc c with
    | none => rw [hb] at h; cases h
    | some acc1 =>
      rw [hb] at h
      simp only [Option.bind_eq_bind, Option.some_bind] at h
      rcases Option.map_eq_some'.mp hb with ⟨pns, hpns, hacc1⟩
      have hname : pns.headD "" = docNameD c := by simp [docNameD, pathD, hpns]
      rw [List.foldl_cons, ih acc1 res h, ← hacc1, names_updateOrAppendRoot, hname]

/-- The grouping fold: each tree's comments are the document's comments in
arrival order. -/
theorem assign_groups :
    ∀ (cs : List Comment) (acc res : List RootTree), cs.foldlM assignStep acc = some res →
    ∀ n, findComments n res
      = findComments n acc ++ cs.filter (fun c => docNameD c == n) := by
  intro cs
  induction cs with
  | nil =>
    intro acc res h n
    simp only [List.foldlM_nil, pure, Option.some.injEq] at h
    subst h
    simp
  | cons c cs' ih =>
    intro acc res h n
    simp only [List.foldlM_cons] at h
    cases hb : assignStep acc c with
    | none => rw [hb] at h; cases h
    | some acc1 =>
      rw [hb] at h
      simp only [Option.bind_eq_bind, Option.some_bind] at h
      rcases Option.map_eq_some'.mp hb with ⟨pns, hpns, hacc1⟩
      have hname : pns.headD "" = docNameD c := by simp [docNameD, pathD, hpns]
      rw [ih acc1 res h n, ← hacc1, findComments_updateOrAppendRoot, hname,
        List.filter_cons]
      by_cases hcn : docNameD c = n
      · subst hcn
        simp [List.append_assoc]
      · have h1 : (docNameD c == n) = false := by simp [hcn]
        have h2 : ¬n = docNameD c := fun hh => hcn hh.symm
        simp [h1, h2]

/-- Every comment of a successfully grouped stream parses. -/
theorem assign_all_parse :
    ∀ (cs : List Comment) (acc res : List RootTree), cs.foldlM assignStep acc = some res →
    ∀ c ∈ cs, (parsePathNames c).isSome := by
  intro cs
  induction cs with
  | nil => intro acc res _ c hc; cases hc
  | cons c0 cs' ih =>
    intro acc res h c hc
    simp only [List.foldlM_cons] at h
    cases hb : assignStep acc c0 with
    | none => rw [hb] at h; cases h
    | some acc1 =>
      rw [hb] at h
      simp only [Option.bind_eq_bind, Option.some_bind] at h
      rcases List.mem_cons.mp hc with hc0 | hc'
      · subst hc0
        rcases Option.map_eq_some'.mp hb with ⟨pns, hpns, _⟩
        simp [hpns]
      · exact ih acc1 res h c hc'

/-- `insertName` keeps first-seen lists duplicate-free. -/
theorem insertName_nodup {l : List String} (h : l.Nodup) (n : String) :
    (insertName l n).Nodup := by
  by_cases hm : n ∈ l
  · simpa [insertName, hm] using h
  · simp only [insertName, hm, if_false]
    exact List.Nodup.append h (List.nodup_singleton n) (by simpa using hm)

/-- The grouping fold never duplicates a document name. -/
theorem assign_nodupNames :
    ∀ (cs : List Comment) (acc res : List RootTree), cs.foldlM assignStep acc = some res →
    (acc.map (fun r => r.docsName)).Nodup → (res.map (fun r => r.docsName)).Nodup := by
  intro cs
  induction cs with
  | nil =>
    intro acc res h hacc
    simp only [List.foldlM_nil, pure, Option.some.injEq] at h
    subst h
    exact hacc
  | cons c cs' ih =>
    intro acc res h hacc
    simp only [List.foldlM_cons] at h
    cases hb : assignStep acc c with
    | none => rw [hb] at h; cases h
    | some acc1 =>
      rw [hb] at h
      simp only [Option.bind_eq_bind, Option.some_bind] at h
      rcases Option.map_eq_some'.mp hb with ⟨pns, _, hacc1⟩
      refine ih acc1 res h ?_
      rw [← hacc1, names_updateOrAppendRoot]
      exact insertName_nodup hacc _

/-- In a name-duplicate-free tree list, `find?` by a member's name returns
that member. -/
theorem find?_of_mem_nodup :
    ∀ (l : List RootTree), (l.map (fun r => r.docsName)).Nodup →
    ∀ r ∈ l, l.find? (fun r' => r'.docsName == r.docsName) = some r := by
  intro l
  induction l with
  | nil => intro _ r hr; cases hr
  | cons dt rest ih =>
    intro hnd r hr
    rcases List.mem_cons.mp hr with hr0 | hr'
    · subst hr0
      simp [List.find?]
    · have hne : dt.docsName ≠ r.docsName := by
        intro hh
        have : dt.docsName ∈ rest.map (fun r' => r'.docsName) := by
          rw [hh]
          exact List.mem_map_of_mem _ hr'
        exact (List.nodup_cons.mp hnd).1 this
      have hb : (dt.docsName == r.docsName) = false := by simp [hne]
      simp only [List.find?, hb]
      exact ih (List.nodup_cons.mp hnd).2 r hr'

/-- Keys of an extension: first-seen insertion of the routed keys. -/
theorem keys_extendS :
    ∀ (R : List Comment) (secs : Sections),
    (extendS secs R).map Prod.fst
      = R.foldl (fun ks c => insertName ks (keyOfC c)) (secs.map Prod.fst) := by
  intro R
  induction R with
  | nil => intro secs; rfl
  | cons c R' ih =>
    intro secs
    simp only [extendS, List.foldl_cons] at ih ⊢
    rw [ih (pushSection secs (keyOfC c) c), keys_pushSection]

/-- Contents of an extension under one key: the old entry followed by the
routed comments with that key, in order. -/
theorem lookup_extendS :
    ∀ (R : List Comment) (secs : Sections) (k : String),
    lookupSecs k (extendS secs R)
      = lookupSecs k secs ++ R.filter (fun c => keyOfC c == k) := by
  intro R
  induction R with
  | nil => intro secs k; simp [extendS]
  | cons c R' ih =>
    intro secs k
    simp only [extendS, List.foldl_cons] at ih ⊢
    rw [ih (pushSection secs (keyOfC c) c), lookupSecs_pushSection, List.filter_cons]
    by_cases hk : k = keyOfC c
    · rw [if_pos hk, if_pos (by simp [hk.symm])]
      simp [List.append_assoc]
    · rw [if_neg hk, if_neg (by simp [Ne.symm hk])]

/-- A right member of a `Forall₂` has a related left member. -/
theorem forall₂_mem_right {α β : Type} {P : α → β → Prop} :
    ∀ {l₁ : List α} {l₂ : List β}, List.Forall₂ P l₁ l₂ →
    ∀ b ∈ l₂, ∃ a ∈ l₁, P a b := by
  intro l₁ l₂ hf
  induction hf with
  | nil => intro b hb; cases hb
  | @cons a b l₁' l₂' hab _ ih =>
    intro b' hb'
    rcases List.mem_cons.mp hb' with hb0 | hb'
    · subst hb0
      exact ⟨a, List.mem_cons_self _ _, hab⟩
    · rcases ih b' hb' with ⟨a', ha', hP⟩
      exact ⟨a', List.mem_cons_of_mem _ ha', hP⟩

/-- `buildPagesRoot` only touches `subPages`/`sections`. -/
theorem buildPagesRoot_fields (t : RootTree) (pns : List String) (c : Comment) :
    (buildPagesRoot t pns c).docsName = t.docsName ∧
      (buildPagesRoot t pns c).comments = t.comments := by
  match pns with
  | [] => exact ⟨rfl, rfl⟩
  | [s] => exact ⟨rfl, rfl⟩
  | p :: q :: rs => exact ⟨rfl, rfl⟩

/-- The build fold keeps a tree's name and grouped comments. -/
theorem foldBuild_fields :
    ∀ (L : List Comment) (t T : RootTree), L.foldlM buildStep t = some T →
    T.docsName = t.docsName ∧ T.comments = t.comments := by
  intro L
  induction L with
  | nil =>
    intro t T h
    simp only [List.foldlM_nil, pure, Option.some.injEq] at h
    subst h
    exact ⟨rfl, rfl⟩
  | cons c L' ih =>
    intro t T h
    simp only [List.foldlM_cons] at h
    cases hb : buildStep t c with
    | none => rw [hb] at h; cases h
    | some t1 =>
      rw [hb] at h
      simp only [Option.bind_eq_bind, Option.some_bind] at h
      rcases Option.map_eq_some'.mp hb with ⟨pns, _, ht1⟩
      have hf := buildPagesRoot_fields t (pns.drop 1) c
      rw [ht1] at hf
      exact ⟨(ih t1 T h).1.trans hf.1, (ih t1 T h).2.trans hf.2⟩

/-- The build pass keeps the document-name sequence. -/
theorem trees_names :
    ∀ {roots trees : List RootTree},
    List.Forall₂ (fun r dt => buildTree r = some dt) roots trees →
    trees.map (fun dt => dt.docsName) = roots.map (fun r => r.docsName) := by
  intro roots trees hf
  induction hf with
  | nil => rfl
  | @cons r dt roots' trees' hpair _ ih =>
    simp only [List.map_cons, ih]
    rw [(foldBuild_fields r.comments r dt hpair).1]

/-- On an all-parsing stream, `filterMap docNameOf` is `map docNameD`. -/
theorem filterMap_docNameOf (cs : List Comment)
    (h : ∀ c ∈ cs, (parsePathNames c).isSome) :
    cs.filterMap docNameOf = cs.map docNameD := by
  induction cs with
  | nil => rfl
  | cons c cs' ih =>
    rcases Option.isSome_iff_exists.mp (h c (List.mem_cons_self _ _)) with ⟨pns, hpns⟩
    have h1 : docNameOf c = some (docNameD c) := by
      simp [docNameOf, docNameD, pathD, hpns]
    rw [List.filterMap_cons, h1, List.map_cons,
      ih (fun c' hc' => h c' (List.mem_cons_of_mem _ hc'))]

/-- Navigation in a freshly grouped (clean) root: only the root node
exists, with an empty dictionary. -/
theorem rootSecsAt_clean (r : RootTree) (hc : cleanRoot r) (π : List String) :
    rootSecsAt r π = if π = [] then some [] else none := by
  cases π with
  | nil => simp [rootSecsAt, hc.2]
  | cons a ps =>
    simp only [rootSecsAt, hc.1]
    rw [show findPage ((none : Option (List PageNode)).getD []) a = none from rfl]
    simp

/-- Any dictionary reachable in a tree built from a clean root holds
exactly the comments routed to its page path, pushed in order. -/
theorem rootSecsAt_foldBuild_clean (L : List Comment) (t T : RootTree) (hc : cleanRoot t)
    (h : L.foldlM buildStep t = some T) (π : List String) (secs : Sections)
    (hs : rootSecsAt T π = some secs) :
    secs = extendS [] (L.filter (fun c => pagePathC c == π)) := by
  have hfold := rootSecsAt_foldBuild L t T h π
  rw [rootSecsAt_clean t hc π] at hfold
  by_cases hπ : π = []
  · rw [if_pos hπ, hs] at hfold
    exact Option.some_inj.mp hfold
  · rw [if_neg hπ, hs] at hfold
    have hfold' : some secs =
        if L.any (fun c => π.isPrefixOf (pagePathC c)) then
          some (extendS [] (L.filter (fun c => pagePathC c == π)))
        else none := hfold
    by_cases hA : L.any (fun c => π.isPrefixOf (pagePathC c))
    · rw [if_pos hA] at hfold'
      exact Option.some_inj.mp hfold'
    · rw [if_neg hA] at hfold'
      cases hfold'

/-- C4, amended: the tree builder is order-preserving up to JS object key
enumeration.  For a comment stream on which `getDocsTrees` succeeds:
documents appear in first-seen order of their names; at every reachable
tree node the section keys are *inserted* in first-seen order of the
comments routed to that node (and so enumerate in first-seen order
whenever no section name is array-index-like — otherwise enumeration
reorders the index-like names first, ascending, see `c4_counterexample`);
and each sections entry holds exactly the comments routed to it, in
arrival order. -/
theorem c4_order_preserving (cs : List Comment) (trees : List RootTree)
    (h : getDocsTrees cs = some trees) :
    trees.map (fun dt => dt.docsName) = firstSeen (cs.filterMap docNameOf) ∧
    ∀ dt ∈ trees, ∀ (π : List String) (secs : Sections), rootSecsAt dt π = some secs →
      secs.map Prod.fst
        = firstSeen ((cs.filter (fun c => routesToNode c dt.docsName π)).map keyOfC) ∧
      ((∀ k ∈ secs.map Prod.fst, isArrayIndexKey k = false) →
        jsOwnKeys (secs.map Prod.fst)
          = firstSeen ((cs.filter (fun c => routesToNode c dt.docsName π)).map keyOfC)) ∧
      ∀ k, lookupSecs k secs = cs.filter (fun c => routesTo c dt.docsName π k) := by
  simp only [getDocsTrees, bind, Option.bind] at h
  cases ha : assignCommentsToDocsTrees cs with
  | none => rw [ha] at h; cases h
  | some roots =>
  rw [ha] at h
  rw [assignCommentsToDocsTrees] at ha
  have hparse : ∀ c ∈ cs, (parsePathNames c).isSome := assign_all_parse cs [] roots ha
  have hf2 := mapM_some_forall₂ buildTree roots trees h
  constructor
  · rw [trees_names hf2, assign_names cs [] roots ha,
      filterMap_docNameOf cs hparse, firstSeen, List.foldl_map]
    rfl
  · intro dt hdt π secs hsecs
    rcases forall₂_mem_right hf2 dt hdt with ⟨r, hr, hbt⟩
    rw [buildTree] at hbt
    have hclean : cleanRoot r := assign_clean cs [] roots ha (by intro r' hr'; cases hr') r hr
    have hdn : dt.docsName = r.docsName := (foldBuild_fields r.comments r dt hbt).1
    have hnd : (roots.map (fun r' => r'.docsName)).Nodup :=
      assign_nodupNames cs [] roots ha (by simp)
    have hcom : r.comments = cs.filter (fun c => docNameD c == r.docsName) := by
      have hg := assign_groups cs [] roots ha r.docsName
      rw [show findComments r.docsName [] = [] from rfl, List.nil_append] at hg
      rw [← hg, findComments, find?_of_mem_nodup roots hnd r hr]
      rfl
    have hsecseq := rootSecsAt_foldBuild_clean r.comments r dt hclean hbt π secs hsecs
    have hfilter : r.comments.filter (fun c => pagePathC c == π)
        = cs.filter (fun c => routesToNode c dt.docsName π) := by
      rw [hcom, List.filter_filter]
      apply List.filter_congr
      intro c hc
      have hps : (parsePathNames c).isSome = true := hparse c hc
      simp [routesToNode, hps, hdn, Bool.and_comm]
    have hkeys : secs.map Prod.fst
        = firstSeen ((cs.filter (fun c => routesToNode c dt.docsName π)).map keyOfC) := by
      rw [hsecseq, keys_extendS, firstSeen, List.foldl_map, hfilter]
      rfl
    refine ⟨hkeys, ?_, ?_⟩
    · intro hno
      rw [jsOwnKeys_of_noIndex hno]
      exact hkeys
    · intro k
      rw [hsecseq, lookup_extendS, show lookupSecs k ([] : Sections) = [] from rfl,
        List.nil_append, hfilter, List.filter_filter]
      apply List.filter_congr
      intro c hc
      have hps : (parsePathNames c).isSome = true := hparse c hc
      simp [routesTo, routesToNode, hps, hdn, Bool.and_comm, Bool.and_left_comm,
        Bool.and_assoc]

/-- C4, witness: two comments in one document, sections `B` then `A` (not
array-index-like), keys stored and enumerated in first-seen order. -/
theorem c4_order_preserving_witness :
    ([⟨"D", [⟨[⟨"docs", "D // B"⟩], 0⟩, ⟨[⟨"docs", "D // A"⟩], 1⟩], none,
        some [("B", [⟨[⟨"docs", "D // B"⟩], 0⟩]), ("A", [⟨[⟨"docs", "D // A"⟩], 1⟩])]⟩]
      : List RootTree).map (fun dt => dt.docsName)
      = firstSeen ([⟨[⟨"docs", "D // B"⟩], 0⟩, ⟨[⟨"docs", "D // A"⟩], 1⟩].filterMap docNameOf) ∧
    ([("B", [⟨[⟨"docs", "D // B"⟩], 0⟩]), ("A", [⟨[⟨"docs", "D // A"⟩], 1⟩])] : Sections).map
        Prod.fst
      = firstSeen ((([⟨[⟨"docs", "D // B"⟩], 0⟩, ⟨[⟨"docs", "D // A"⟩], 1⟩]
          : List Comment).filter (fun c => routesToNode c "D" [])).map keyOfC) ∧
    jsOwnKeys (([("B", [⟨[⟨"docs", "D // B"⟩], 0⟩]), ("A", [⟨[⟨"docs", "D // A"⟩], 1⟩])]
        : Sections).map Prod.fst)
      = firstSeen ((([⟨[⟨"docs", "D // B"⟩], 0⟩, ⟨[⟨"docs", "D // A"⟩], 1⟩]
          : List Comment).filter (fun c => routesToNode c "D" [])).map keyOfC) := by
  have h := c4_order_preserving
    [⟨[⟨"docs", "D // B"⟩], 0⟩, ⟨[⟨"docs", "D // A"⟩], 1⟩]
    [⟨"D", [⟨[⟨"docs", "D // B"⟩], 0⟩, ⟨[⟨"docs", "D // A"⟩], 1⟩], none,
      some [("B", [⟨[⟨"docs", "D // B"⟩], 0⟩]), ("A", [⟨[⟨"docs", "D // A"⟩], 1⟩])]⟩]
    rfl
  have h2 := h.2 _ (List.mem_cons_self _ _) [] _ rfl
  exact ⟨h.1, h2.1, h2.2.1 (by decide)⟩

end JSMkDocs
